import Mathlib

/-!
# celerix-flow: the access layer of `internal/db/db.go`

A shallow embedding of the File Registry, the Client Directory and the Listing
Engine of `backend/internal/db/db.go`, over a model of the persona-scoped
key-value engine that the package consumes.
-/

namespace Flow

/-! ## Record schema (`db.go`, lines 13-50) -/

/-- The failures of the layer.  `notFound` stands for the engine's
"key not found" / "app not found" / "persona not found", `decode` for a stored
value that does not have the requested record shape, `clientNotFound` for the
`fmt.Errorf("client not found")` of `GetClientByRecoveryCode`, and `slicePanic`
for the Go runtime panic of a slice expression with bounds out of range. -/
inductive Error where
  | notFound
  | decode
  | clientNotFound
  | slicePanic
deriving DecidableEq, Repr

/-- The `FileRecord` struct; `int64` fields are integers (no arithmetic is done
on them). -/
structure FileRecord where
  ID : String
  OriginalName : String
  StoredPath : String
  Size : Int
  UploadTime : Int
  OwnerID : String
  OwnerName : String
  DownloadLink : String
  IsPublic : Bool
deriving DecidableEq, Repr

/-- The `ClientRecord` struct. -/
structure ClientRecord where
  ID : String
  Name : String
  RecoveryCode : String
  LastActive : Int
  IsAdmin : Bool
deriving DecidableEq, Repr

/-- The `ListFilesOptions` struct; `Limit` and `Offset` are Go `int`s. -/
structure ListFilesOptions where
  Search : String
  OwnerID : String
  Limit : Int
  Offset : Int
deriving DecidableEq, Repr

/-- The `FileListResponse` struct. -/
structure FileListResponse where
  Files : List FileRecord
  Total : Int
deriving DecidableEq, Repr

def AppID : String := "flow"

def FileKeyPrefix : String := "file:"

def ClientKeyPrefix : String := "client:"

/-- Modelled from the spec: the engine's distinguished `SystemPersona` sentinel
(`sdk.SystemPersona`, declared outside this repository), taken to be the
persona name "_system".  The general properties below do not depend on its
spelling; that it is not the empty string matters for C2. -/
def SystemPersona : String := "_system"

/-! ## The key-value engine (external collaborator) -/

/-- Modelled from the spec: what the engine stores under a key is an opaque
value; reading it back at a record type either yields the record that was
written or fails to decode.  `other` is any value that has neither record
shape. -/
inductive Value where
  | file (r : FileRecord)
  | client (c : ClientRecord)
  | other (raw : String)
deriving DecidableEq, Repr

/-- A (persona, application, key) triple, the address of one stored value. -/
structure Loc where
  persona : String
  app : String
  key : String
deriving DecidableEq, Repr

/-- Modelled from the spec: the state of the engine, a finite map from
(persona, application, key) to a value.  The entries are kept in a list
without duplicate addresses, the most recently written address first; the list
order is the order in which the engine enumerates its content (the iteration
order of the dump, which the spec leaves open). -/
structure Store where
  data : AList (fun _ : Loc => Value)

/-- The store without any entry. -/
def Store.empty : Store := ⟨∅⟩

/-- Modelled from the spec: `get(persona, app, key) → value | NotFound`. -/
def Store.Get (s : Store) (persona app key : String) : Except Error Value :=
  match s.data.lookup ⟨persona, app, key⟩ with
  | some v => .ok v
  | none => .error .notFound

/-- Modelled from the spec: `set(persona, app, key, value) → ok | error`.  The
model has no source of I/O failure, so the write always succeeds. -/
def Store.Set (s : Store) (persona app key : String) (v : Value) : Except Error Store :=
  .ok ⟨s.data.insert ⟨persona, app, key⟩ v⟩

/-- Modelled from the spec: `delete(persona, app, key) → ok`, idempotent: an
absent key is not an error. -/
def Store.Delete (s : Store) (persona app key : String) : Except Error Store :=
  .ok ⟨s.data.erase ⟨persona, app, key⟩⟩

/-- Modelled from the spec: `move(oldPersona, newPersona, app, key) → ok | error`,
which relocates one key from one persona to another; it fails when the old
persona does not hold the key. -/
def Store.Move (s : Store) (oldPersona newPersona app key : String) : Except Error Store :=
  match s.data.lookup ⟨oldPersona, app, key⟩ with
  | none => .error .notFound
  | some v => .ok ⟨(s.data.erase ⟨oldPersona, app, key⟩).insert ⟨newPersona, app, key⟩ v⟩

/-- Modelled from the spec: `getGlobal(app, key) → (value, personaID) | NotFound`,
the reverse index from a bare key to the persona currently holding it.  When a
single persona holds the key the answer is that persona; when several do, the
index answers with the one that received the key last (the first holder in the
entry list). -/
def Store.GetGlobal (s : Store) (app key : String) : Except Error (Value × String) :=
  match s.data.entries.find? (fun e => e.1.app == app && e.1.key == key) with
  | some e => .ok (e.2, e.1.persona)
  | none => .error .notFound

/-- Modelled from the spec: `dumpApp(app) → mapping personaID → mapping key → value`,
one group per persona that holds a key of the application, in the engine's
enumeration order. -/
def Store.DumpApp (s : Store) (app : String) : List (String × List (String × Value)) :=
  let es := s.data.entries.filter (fun e => e.1.app == app)
  (es.map (fun e => e.1.persona)).dedup.map
    (fun p => (p, (es.filter (fun e => e.1.persona == p)).map (fun e => (e.1.key, e.2))))

/-- Modelled from the spec: `GetAppStore(persona, app)`, the key → value mapping
of one persona's application namespace (the per-persona part of `dumpApp`). -/
def Store.GetAppStore (s : Store) (persona app : String) : List (String × Value) :=
  (s.data.entries.filter (fun e => e.1.persona == persona && e.1.app == app)).map
    (fun e => (e.1.key, e.2))

/-- Modelled from the spec: `sdk.Get[FileRecord]`, the engine's `get` followed by
decoding at the `FileRecord` shape. -/
def sdkGetFile (s : Store) (persona app key : String) : Except Error FileRecord :=
  match s.Get persona app key with
  | .error e => .error e
  | .ok (.file r) => .ok r
  | .ok _ => .error .decode

/-- Modelled from the spec: `sdk.Get[ClientRecord]`, the engine's `get` followed
by decoding at the `ClientRecord` shape. -/
def sdkGetClient (s : Store) (persona app key : String) : Except Error ClientRecord :=
  match s.Get persona app key with
  | .error e => .error e
  | .ok (.client c) => .ok c
  | .ok _ => .error .decode

/-- Go's `<` on strings: the lexicographic comparison of the two character
sequences. -/
def stringLess (a b : String) : Bool := decide (a.data < b.data)

/-- Go's `strings.HasPrefix`. -/
def HasPrefix (s pre : String) : Bool := pre.data.isPrefixOf s.data

/-! ## Client Directory: `GetClient` (`db.go`, lines 247-253) -/

def GetClient (s : Store) (id : String) : Except Error ClientRecord :=
  match sdkGetClient s SystemPersona AppID (ClientKeyPrefix ++ id) with
  | .error err => .error err
  | .ok client => .ok client

/-! ## File Registry (`db.go`, lines 52-125) -/

def SaveFileRecord (s : Store) (record : FileRecord) : Except Error Store :=
  let persona := record.OwnerID
  let persona := if persona == "" then SystemPersona else persona
  s.Set persona AppID (FileKeyPrefix ++ record.ID) (.file record)

def GetFileRecord (s : Store) (id : String) : Except Error FileRecord :=
  match s.GetGlobal AppID (FileKeyPrefix ++ id) with
  | .error err => .error err
  | .ok (_, personaID) =>
    match sdkGetFile s personaID AppID (FileKeyPrefix ++ id) with
    | .error err => .error err
    | .ok record =>
      -- Fetch owner name
      if record.OwnerID != "" then
        match GetClient s record.OwnerID with
        | .ok client => .ok { record with OwnerName := client.Name }
        | .error _ => .ok { record with OwnerName := "Unknown" }
      else
        .ok { record with OwnerName := "Admin" }

def UpdateFileRecord (s : Store) (id name ownerID : String) (isPublic : Bool) :
    Except Error Store :=
  match GetFileRecord s id with
  | .error err => .error err
  | .ok record =>
    let oldPersona := record.OwnerID
    let oldPersona := if oldPersona == "" then SystemPersona else oldPersona
    let record := { record with OriginalName := name, OwnerID := ownerID, IsPublic := isPublic }
    let newPersona := ownerID
    let newPersona := if newPersona == "" then SystemPersona else newPersona
    if oldPersona != newPersona then
      match s.Move oldPersona newPersona AppID (FileKeyPrefix ++ id) with
      | .error err => .error err
      | .ok s1 =>
        -- Always update the record content
        s1.Set newPersona AppID (FileKeyPrefix ++ record.ID) (.file record)
    else
      s.Set newPersona AppID (FileKeyPrefix ++ record.ID) (.file record)

def DeleteFileRecord (s : Store) (id : String) : Except Error Store :=
  match GetFileRecord s id with
  | .error err => .error err
  | .ok record =>
    let persona := record.OwnerID
    let persona := if persona == "" then SystemPersona else persona
    s.Delete persona AppID (FileKeyPrefix ++ id)

/-! ## Go built-ins and standard library used by the package -/

/-- Helper of `Contains`: whether `sub` occurs in `l` as a contiguous block,
found by trying every start position in turn. -/
def containsAt : List Char → List Char → Bool
  | [], sub => sub.isPrefixOf []
  | c :: cs, sub => sub.isPrefixOf (c :: cs) || containsAt cs sub

/-- Go's `strings.Contains`: substring test. -/
def Contains (s substr : String) : Bool := containsAt s.data substr.data

/-- The less functions that `sort.Slice` is specified for: strict weak
orderings. -/
def StrictWeak {α : Type} (less : α → α → Bool) : Prop :=
  (∀ a b, less a b = true → less b a = false) ∧
  (∀ a b c, less a c = true → less a b = true ∨ less b c = true)

/-- The two Go standard-library functions that the package calls and whose code
is outside this repository, taken as a parameter.  `ToLower` is
`strings.ToLower`.  `sortSlice` is `sort.Slice`, of which the documented
contract is assumed: the result is a rearrangement of the input in which no
element is `less` than an element before it; the order of equal elements is
not part of the contract ("The sort is not guaranteed to be stable: equal
elements may be reversed from their original order"). -/
structure GoLib where
  ToLower : String → String
  sortSlice : {α : Type} → (α → α → Bool) → List α → List α
  sortSlice_perm : ∀ {α : Type} (less : α → α → Bool) (l : List α),
    (sortSlice less l).Perm l
  sortSlice_sorted : ∀ {α : Type} (less : α → α → Bool) (l : List α), StrictWeak less →
    (sortSlice less l).Pairwise (fun x y => less y x = false)

/-- Two's-complement wraparound of a Go `int` (64 bits). -/
def wrapInt64 (x : Int) : Int := (x + 2 ^ 63) % 2 ^ 64 - 2 ^ 63

/-- The Go slice expression `xs[lo:hi]` on a slice whose capacity is its length:
a runtime panic unless `0 ≤ lo ≤ hi ≤ len(xs)`. -/
def goSlice {α : Type} (xs : List α) (lo hi : Int) : Except Error (List α) :=
  if 0 ≤ lo ∧ lo ≤ hi ∧ hi ≤ (xs.length : Int) then
    .ok ((xs.take hi.toNat).drop lo.toNat)
  else
    .error .slicePanic

/-! ## Listing Engine (`db.go`, lines 127-213) -/

/-- The first loop of `ListFiles` (lines 139-153): every decodable value under a
file key of the dump that passes the visibility test. -/
def ListFiles.allRecords (s : Store) (opts : ListFilesOptions) : List FileRecord :=
  (s.DumpApp AppID).flatMap fun (personaID, appStore) =>
    appStore.filterMap fun (k, _) =>
      if HasPrefix k FileKeyPrefix then
        match sdkGetFile s personaID AppID k with
        | .ok r =>
          if opts.OwnerID == "" || r.OwnerID == opts.OwnerID || r.IsPublic then some r
          else none
        | .error _ => none
      else none

/-- The second loop of `ListFiles` (lines 155-174): the text filter and the
owner name. -/
def ListFiles.filtered (lib : GoLib) (s : Store) (opts : ListFilesOptions)
    (allRecords : List FileRecord) : List FileRecord :=
  allRecords.filterMap fun r =>
    -- Filter by search
    if opts.Search != "" &&
        !(Contains (lib.ToLower r.OriginalName) (lib.ToLower opts.Search)) then none
    else
      -- Fetch owner name
      if r.OwnerID != "" then
        match GetClient s r.OwnerID with
        | .ok client => some { r with OwnerName := client.Name }
        | .error _ => some { r with OwnerName := "Unknown" }
      else
        some { r with OwnerName := "Admin" }

def ListFiles (lib : GoLib) (s : Store) (opts : ListFilesOptions) :
    Except Error FileListResponse :=
  let allRecords := ListFiles.allRecords s opts
  let filtered := ListFiles.filtered lib s opts allRecords
  -- Sort by upload time desc
  let filtered := lib.sortSlice (fun a b => decide (a.UploadTime > b.UploadTime)) filtered
  let total : Int := filtered.length
  -- Pagination
  let start := opts.Offset
  let start := if start > total then total else start
  let end1 := wrapInt64 (start + opts.Limit)
  let end1 := if opts.Limit ≤ 0 || end1 > total then total else end1
  match goSlice filtered start end1 with
  | .error err => .error err
  | .ok files => .ok { Files := files, Total := total }

def GetAllFileRecords (lib : GoLib) (s : Store) : Except Error (List FileRecord) :=
  match ListFiles lib s { Search := "", OwnerID := "", Limit := 0, Offset := 0 } with
  | .error err => .error err
  | .ok resp => .ok resp.Files

def GetFileRecordsByOwner (lib : GoLib) (s : Store) (ownerID : String) :
    Except Error (List FileRecord) :=
  match ListFiles lib s { Search := "", OwnerID := ownerID, Limit := 0, Offset := 0 } with
  | .error err => .error err
  | .ok resp => .ok resp.Files

/-! ## Client Directory (`db.go`, lines 215-313) -/

def UpsertClient (s : Store) (id name recoveryCode : String) (lastActive : Int) :
    Except Error Store :=
  let client : ClientRecord :=
    match GetClient s id with
    | .error _ =>
      -- New client
      { ID := id, Name := name, RecoveryCode := recoveryCode, LastActive := lastActive,
        IsAdmin := false }
    | .ok client =>
      { client with Name := name, RecoveryCode := recoveryCode, LastActive := lastActive }
  s.Set SystemPersona AppID (ClientKeyPrefix ++ id) (.client client)

def UpdateClientLastActive (s : Store) (id : String) (lastActive : Int) : Except Error Store :=
  match GetClient s id with
  | .error err => .error err
  | .ok client =>
    s.Set SystemPersona AppID (ClientKeyPrefix ++ id)
      (.client { client with LastActive := lastActive })

def DeleteClient (s : Store) (id : String) : Except Error Store :=
  s.Delete SystemPersona AppID (ClientKeyPrefix ++ id)

def GetClientByRecoveryCode (s : Store) (code : String) : Except Error ClientRecord :=
  let appStore := s.GetAppStore SystemPersona AppID
  let found := appStore.findSome? fun (k, _) =>
    if HasPrefix k ClientKeyPrefix then
      match sdkGetClient s SystemPersona AppID k with
      | .ok c => if c.RecoveryCode == code then some c else none
      | .error _ => none
    else none
  match found with
  | some c => .ok c
  | none => .error .clientNotFound

def ListClients (lib : GoLib) (s : Store) : Except Error (List ClientRecord) :=
  let appStore := s.GetAppStore SystemPersona AppID
  let clients := appStore.filterMap fun (k, _) =>
    if HasPrefix k ClientKeyPrefix then
      match sdkGetClient s SystemPersona AppID k with
      | .ok c => some c
      | .error _ => none
    else none
  .ok (lib.sortSlice (fun a b => stringLess a.Name b.Name) clients)

def UpdateClientAdminStatus (s : Store) (id : String) (isAdmin : Bool) : Except Error Store :=
  match GetClient s id with
  | .error err => .error err
  | .ok client =>
    s.Set SystemPersona AppID (ClientKeyPrefix ++ id) (.client { client with IsAdmin := isAdmin })

def UpdateClientFull (s : Store) (id name recoveryCode : String) (isAdmin : Bool) :
    Except Error Store :=
  match GetClient s id with
  | .error err => .error err
  | .ok client =>
    s.Set SystemPersona AppID (ClientKeyPrefix ++ id)
      (.client { client with Name := name, RecoveryCode := recoveryCode, IsAdmin := isAdmin })

/-! ## Vocabulary of the specification -/

/-- The Persona Resolver of the spec: the persona that holds a record of the
given owner. -/
def resolvePersona (ownerID : String) : String :=
  if ownerID = "" then SystemPersona else ownerID

/-- The owner name that the spec prescribes on read: "Admin" for an empty owner,
the client's name when the client lookup succeeds, "Unknown" otherwise. -/
def resolvedOwnerName (s : Store) (ownerID : String) : String :=
  if ownerID = "" then "Admin"
  else
    match GetClient s ownerID with
    | .ok client => client.Name
    | .error _ => "Unknown"

/-- The value stored at an address, if any. -/
def Store.val (s : Store) (l : Loc) : Option Value := s.data.lookup l

/-- The address of the file record `id` in a persona. -/
def fileLoc (persona id : String) : Loc := ⟨persona, AppID, FileKeyPrefix ++ id⟩

/-- The address of the client record `id`. -/
def clientLoc (id : String) : Loc := ⟨SystemPersona, AppID, ClientKeyPrefix ++ id⟩

deriving instance DecidableEq for Except

/-- Two stores are equal when their entry lists are. -/
instance : DecidableEq Store := fun a b =>
  decidable_of_iff (a.data.entries = b.data.entries)
    ⟨fun h => by cases a; cases b; congr; exact AList.ext h, fun h => by rw [h]⟩

/-- The record that `UpdateFileRecord` writes back for a stored record `r`: the
record as `GetFileRecord` returns it, with the three mutable fields replaced. -/
def updatedRecord (s : Store) (r : FileRecord) (name ownerID : String) (isPublic : Bool) :
    FileRecord :=
  { r with
    OwnerName := resolvedOwnerName s r.OwnerID
    OriginalName := name
    OwnerID := ownerID
    IsPublic := isPublic }

/-- A call of the File Registry that writes. -/
inductive FileOp where
  | save (record : FileRecord)
  | update (id name ownerID : String) (isPublic : Bool)
  | delete (id : String)
deriving DecidableEq, Repr

/-- The store after one call; a call that returns an error leaves it as it was. -/
def applyFileOp (s : Store) : FileOp → Store
  | .save record =>
    match SaveFileRecord s record with
    | .ok s1 => s1
    | .error _ => s
  | .update id name ownerID isPublic =>
    match UpdateFileRecord s id name ownerID isPublic with
    | .ok s1 => s1
    | .error _ => s
  | .delete id =>
    match DeleteFileRecord s id with
    | .ok s1 => s1
    | .error _ => s

/-- The store after a sequence of calls. -/
def runFileOps (s : Store) (ops : List FileOp) : Store := ops.foldl applyFileOp s

/-- The storage-location invariant of the spec: every file key is held by at
most one persona, and the holder is the persona of the stored record's owner. -/
def LocationInv (s : Store) : Prop :=
  ∀ id : String,
    (∀ p q v w, s.Get p AppID (FileKeyPrefix ++ id) = .ok v →
      s.Get q AppID (FileKeyPrefix ++ id) = .ok w → p = q) ∧
    (∀ p v, s.Get p AppID (FileKeyPrefix ++ id) = .ok v →
      ∃ r, v = .file r ∧ p = resolvePersona r.OwnerID)

/-- A save is fresh when no persona other than the record's own holds its key at
the time of the call; the other calls carry no condition. -/
def FreshSave (s : Store) : FileOp → Prop
  | .save record =>
    ∀ p v, s.Get p AppID (FileKeyPrefix ++ record.ID) = .ok v →
      p = resolvePersona record.OwnerID
  | _ => True

/-- A sequence of calls all of whose saves are fresh when they are made. -/
def FreshSaves : Store → List FileOp → Prop
  | _, [] => True
  | s, op :: ops => FreshSave s op ∧ FreshSaves (applyFileOp s op) ops

/-- The invariant used for the induction: the location invariant together with
the fact that the record under `"file:" + id` carries the id `id`. -/
def FileInv (s : Store) : Prop :=
  ∀ id p v, s.val (fileLoc p id) = some v →
    (∃ r, v = .file r ∧ r.ID = id ∧ p = resolvePersona r.OwnerID) ∧
    ∀ q w, s.val (fileLoc q id) = some w → q = p

/-! ## Sample data for the concrete checks -/

/-- A private file of owner "u1". -/
def sampleA : FileRecord :=
  { ID := "f1", OriginalName := "Report.txt", StoredPath := "/data/f1", Size := 3,
    UploadTime := 100, OwnerID := "u1", OwnerName := "", DownloadLink := "link-a",
    IsPublic := false }

/-- A public file of owner "u2". -/
def sampleB : FileRecord :=
  { ID := "f2", OriginalName := "notes.md", StoredPath := "/data/f2", Size := 5,
    UploadTime := 200, OwnerID := "u2", OwnerName := "", DownloadLink := "link-b",
    IsPublic := true }

/-- The record `sampleA` saved again under another owner. -/
def sampleA2 : FileRecord := { sampleA with OwnerID := "u2" }

/-- A file without owner. -/
def sampleSys : FileRecord :=
  { ID := "f3", OriginalName := "system.log", StoredPath := "/data/f3", Size := 7,
    UploadTime := 200, OwnerID := "", OwnerName := "", DownloadLink := "link-c",
    IsPublic := false }

/-- The store that holds `sampleA` and `sampleB`. -/
def sampleStore : Store := runFileOps Store.empty [.save sampleA, .save sampleB]

/-- The store that holds the ownerless `sampleSys` only. -/
def sampleSysStore : Store := runFileOps Store.empty [.save sampleSys]

/-! ## Vocabulary of the specification: listing -/

/-- Decoding of a stored value at the `FileRecord` shape. -/
def decodeFile : Value → Option FileRecord
  | .file r => some r
  | _ => none

/-- The decodable file records of the store: one for each address of the
application whose key has the file prefix and whose value decodes. -/
def storedFiles (s : Store) : List FileRecord :=
  s.data.entries.filterMap fun e =>
    if e.1.app = AppID ∧ HasPrefix e.1.key FileKeyPrefix = true then decodeFile e.2 else none

/-- The visibility rule of the spec (§4.4 step 3). -/
def visibleTo (ownerID : String) (r : FileRecord) : Bool :=
  ownerID == "" || r.OwnerID == ownerID || r.IsPublic

/-- The text filter of the spec (§4.4 step 4). -/
def matchesSearch (lib : GoLib) (search : String) (r : FileRecord) : Bool :=
  search == "" || Contains (lib.ToLower r.OriginalName) (lib.ToLower search)

/-- A record as it is returned on read: with the owner name resolved. -/
def withOwnerName (s : Store) (r : FileRecord) : FileRecord :=
  { r with OwnerName := resolvedOwnerName s r.OwnerID }

/-- The records that survive the visibility and the text filter, as the spec
describes them (§4.4 steps 2-5), in the order of the store's entries. -/
def survivingFiles (lib : GoLib) (s : Store) (opts : ListFilesOptions) : List FileRecord :=
  ((storedFiles s).filter
    (fun r => visibleTo opts.OwnerID r && matchesSearch lib opts.Search r)).map (withOwnerName s)

/-- The list that `ListFiles` paginates: the variable `filtered` after the sort
(line 179). -/
def sortedFiles (lib : GoLib) (s : Store) (opts : ListFilesOptions) : List FileRecord :=
  lib.sortSlice (fun a b => decide (a.UploadTime > b.UploadTime))
    (ListFiles.filtered lib s opts (ListFiles.allRecords s opts))

/-! ## Libraries that meet the `GoLib` contract -/

/-- Lower-casing of the ASCII letters, a stand-in for `strings.ToLower` in the
concrete checks. -/
def asciiLower (s : String) : String := ⟨s.data.map Char.toLower⟩

/-- A library whose `sortSlice` rearranges the slice with `pre` and then runs
the insertion sort that Go uses on short slices. -/
def goLibOf (pre : {α : Type} → List α → List α)
    (hpre : ∀ {α : Type} (l : List α), (pre l).Perm l) : GoLib where
  ToLower := asciiLower
  sortSlice := fun less l => (pre l).insertionSort (fun a b => less b a = false)
  sortSlice_perm := fun _ l => (List.perm_insertionSort _ (pre l)).trans (hpre l)
  sortSlice_sorted := fun {α} less l h => by
    haveI : IsTotal α (fun a b => less b a = false) := ⟨fun a b => by
      cases hab : less b a with
      | false => exact Or.inl rfl
      | true => exact Or.inr (h.1 b a hab)⟩
    haveI : IsTrans α (fun a b => less b a = false) := ⟨fun a b c hab hbc => by
      cases hca : less c a with
      | false => rfl
      | true =>
        rcases h.2 c b a hca with h1 | h1
        · simp [h1] at hbc
        · simp [h1] at hab⟩
    exact List.sorted_insertionSort (fun a b => less b a = false) (pre l)

/-- The library whose sort keeps equal elements in their order. -/
def stableLib : GoLib := goLibOf (fun l => l) (fun l => List.Perm.refl l)

/-! ## Go's `sort.Slice` (package `sort`, file `zsortfunc.go`, Go 1.19 and later)

`sort.Slice(x, less)` runs `pdqsort_func(lessSwap{less, swap}, 0, length,
bits.Len(uint(length)))`.  The functions below follow `zsortfunc.go` one by
one.  The slice is represented by the arrangement `d` of the positions that its
elements had before the sort: `data.Less(i, j)` compares the elements that stand
at `i` and `j` now, `data.Swap(i, j)` exchanges them.  Every index of the run is
a small natural number, so `Nat` stands for Go's `int`. -/

namespace GoSort

/-- Go's `data.Less(i, j)`: `lt p q` is `less` on the elements that stood at the
positions `p` and `q` before the sort. -/
def Less (lt : Nat → Nat → Bool) (d : List Nat) (i j : Nat) : Bool :=
  lt (d.getD i 0) (d.getD j 0)

/-- Go's `data.Swap(i, j)`. -/
def Swap (d : List Nat) (i j : Nat) : List Nat :=
  (d.set i (d.getD j 0)).set j (d.getD i 0)

/-- The inner loop of `insertionSort_func`:
`for j := i; j > a && data.Less(j, j-1); j-- { data.Swap(j, j-1) }`. -/
def insertionSort_inner (lt : Nat → Nat → Bool) (a : Nat) : Nat → List Nat → List Nat
  | 0, d => d
  | j + 1, d =>
    if j + 1 > a && Less lt d (j + 1) j then insertionSort_inner lt a j (Swap d (j + 1) j)
    else d

/-- Go's `insertionSort_func(data, a, b)`: the outer loop `for i := a + 1; i < b; i++`. -/
def insertionSort_func (lt : Nat → Nat → Bool) (d : List Nat) (a b : Nat) : List Nat :=
  (List.range' (a + 1) (b - (a + 1))).foldl (fun d i => insertionSort_inner lt a i d) d

/-- Go's `siftDown_func(data, lo, hi, first)`, the loop on `root` that starts at
`lo`; the first argument bounds the number of rounds (`root` grows in each). -/
def siftDown_func (lt : Nat → Nat → Bool) (hi first : Nat) : Nat → Nat → List Nat → List Nat
  | 0, _, d => d
  | fuel + 1, root, d =>
    let child := 2 * root + 1
    if child ≥ hi then d
    else
      let child :=
        if child + 1 < hi && Less lt d (first + child) (first + child + 1) then child + 1
        else child
      if !Less lt d (first + root) (first + child) then d
      else siftDown_func lt hi first fuel child (Swap d (first + root) (first + child))

/-- Go's `heapSort_func(data, a, b)`: the loop `for i := (hi - 1) / 2; i >= 0; i--`
that builds the heap, then the loop `for i := hi - 1; i >= 0; i--` that pops. -/
def heapSort_func (lt : Nat → Nat → Bool) (d : List Nat) (a b : Nat) : List Nat :=
  let first := a
  let lo := 0
  let hi := b - a
  let d := (List.range ((hi - 1) / 2 + 1)).reverse.foldl
    (fun d i => siftDown_func lt hi first hi i d) d
  (List.range hi).reverse.foldl
    (fun d i => siftDown_func lt i first hi lo (Swap d first (first + i))) d

/-- The loop `for i <= j && data.Less(i, a) { i++ }` of `partition_func`. -/
def partition_up (lt : Nat → Nat → Bool) (d : List Nat) (a j : Nat) : Nat → Nat → Nat
  | 0, i => i
  | fuel + 1, i => if i ≤ j && Less lt d i a then partition_up lt d a j fuel (i + 1) else i

/-- The loop `for i <= j && !data.Less(j, a) { j-- }` of `partition_func`. -/
def partition_down (lt : Nat → Nat → Bool) (d : List Nat) (a i : Nat) : Nat → Nat → Nat
  | 0, j => j
  | fuel + 1, j => if i ≤ j && !Less lt d j a then partition_down lt d a i fuel (j - 1) else j

/-- The `for { ... }` loop of `partition_func`; the result is the slice and `j`
at the `break`. -/
def partition_loop (lt : Nat → Nat → Bool) (a b : Nat) :
    Nat → List Nat → Nat → Nat → List Nat × Nat
  | 0, d, _, j => (d, j)
  | fuel + 1, d, i, j =>
    let i := partition_up lt d a j b i
    let j := partition_down lt d a i b j
    if i > j then (d, j)
    else partition_loop lt a b fuel (Swap d i j) (i + 1) (j - 1)

/-- Go's `partition_func(data, a, b, pivot)`: the slice, `newpivot` and
`alreadyPartitioned`. -/
def partition_func (lt : Nat → Nat → Bool) (d : List Nat) (a b pivot : Nat) :
    List Nat × Nat × Bool :=
  let d := Swap d a pivot
  let i := a + 1
  let j := b - 1
  let i := partition_up lt d a j b i
  let j := partition_down lt d a i b j
  if i > j then (Swap d j a, j, true)
  else
    let d := Swap d i j
    let r := partition_loop lt a b b d (i + 1) (j - 1)
    (Swap r.1 r.2 a, r.2, false)

/-- The loop `for i <= j && !data.Less(a, i) { i++ }` of `partitionEqual_func`. -/
def partitionEqual_up (lt : Nat → Nat → Bool) (d : List Nat) (a j : Nat) : Nat → Nat → Nat
  | 0, i => i
  | fuel + 1, i =>
    if i ≤ j && !Less lt d a i then partitionEqual_up lt d a j fuel (i + 1) else i

/-- The loop `for i <= j && data.Less(a, j) { j-- }` of `partitionEqual_func`. -/
def partitionEqual_down (lt : Nat → Nat → Bool) (d : List Nat) (a i : Nat) : Nat → Nat → Nat
  | 0, j => j
  | fuel + 1, j =>
    if i ≤ j && Less lt d a j then partitionEqual_down lt d a i fuel (j - 1) else j

/-- The `for { ... }` loop of `partitionEqual_func`; the result is the slice and
`i` at the `break`. -/
def partitionEqual_loop (lt : Nat → Nat → Bool) (a b : Nat) :
    Nat → List Nat → Nat → Nat → List Nat × Nat
  | 0, d, i, _ => (d, i)
  | fuel + 1, d, i, j =>
    let i := partitionEqual_up lt d a j b i
    let j := partitionEqual_down lt d a i b j
    if i > j then (d, i)
    else partitionEqual_loop lt a b fuel (Swap d i j) (i + 1) (j - 1)

/-- Go's `partitionEqual_func(data, a, b, pivot)`: the slice and `newpivot`. -/
def partitionEqual_func (lt : Nat → Nat → Bool) (d : List Nat) (a b pivot : Nat) :
    List Nat × Nat :=
  partitionEqual_loop lt a b (b + 1) (Swap d a pivot) (a + 1) (b - 1)

/-- The loop `for i < b && !data.Less(i, i-1) { i++ }` of
`partialInsertionSort_func`. -/
def partialInsertionSort_skip (lt : Nat → Nat → Bool) (d : List Nat) (b : Nat) : Nat → Nat → Nat
  | 0, i => i
  | fuel + 1, i =>
    if i < b && !Less lt d i (i - 1) then partialInsertionSort_skip lt d b fuel (i + 1) else i

/-- The loop `for j := i - 1; j >= 1; j--` of `partialInsertionSort_func`, which
shifts the smaller element to the left. -/
def partialInsertionSort_left (lt : Nat → Nat → Bool) : Nat → List Nat → List Nat
  | 0, d => d
  | j + 1, d =>
    if !Less lt d (j + 1) j then d else partialInsertionSort_left lt j (Swap d (j + 1) j)

/-- The loop `for j := i + 1; j < b; j++` of `partialInsertionSort_func`, which
shifts the greater element to the right. -/
def partialInsertionSort_right (lt : Nat → Nat → Bool) (b : Nat) : Nat → Nat → List Nat → List Nat
  | 0, _, d => d
  | fuel + 1, j, d =>
    if j < b then
      if !Less lt d j (j - 1) then d
      else partialInsertionSort_right lt b fuel (j + 1) (Swap d j (j - 1))
    else d

/-- The loop `for j := 0; j < maxSteps; j++` of `partialInsertionSort_func`; the
first argument is the number of steps that remain. -/
def partialInsertionSort_steps (lt : Nat → Nat → Bool) (a b : Nat) :
    Nat → List Nat → Nat → List Nat × Bool
  | 0, d, _ => (d, false)
  | steps + 1, d, i =>
    let i := partialInsertionSort_skip lt d b b i
    if i = b then (d, true)
    else if b - a < 50 then (d, false)
    else
      let d := Swap d i (i - 1)
      let d := if i - a ≥ 2 then partialInsertionSort_left lt (i - 1) d else d
      let d := if b - i ≥ 2 then partialInsertionSort_right lt b b (i + 1) d else d
      partialInsertionSort_steps lt a b steps d i

/-- Go's `partialInsertionSort_func(data, a, b)` with `maxSteps = 5` and
`shortestShifting = 50`: the slice, and whether it is sorted at the end. -/
def partialInsertionSort_func (lt : Nat → Nat → Bool) (d : List Nat) (a b : Nat) :
    List Nat × Bool :=
  partialInsertionSort_steps lt a b 5 d (a + 1)

/-- Go's `xorshift.Next` on a `uint64` state. -/
def xorshift_Next (r : Nat) : Nat :=
  let r := r ^^^ ((r <<< 13) % 2 ^ 64)
  let r := r ^^^ (r >>> 7)
  r ^^^ ((r <<< 17) % 2 ^ 64)

/-- Go's `bits.Len` on a `uint`: the number of bits of `n`. -/
def bitsLen : Nat → Nat → Nat
  | 0, _ => 0
  | fuel + 1, n => if n = 0 then 0 else bitsLen fuel (n / 2) + 1

/-- Go's `nextPowerOfTwo(length)`: `1 << bits.Len(uint(length))`. -/
def nextPowerOfTwo (length : Nat) : Nat := 2 ^ bitsLen 64 length

/-- The loop `for i := 0; i < 3; i++` of `breakPatterns_func`. -/
def breakPatterns_loop (a length idx modulus : Nat) : List Nat → List Nat × Nat → List Nat × Nat
  | [], st => st
  | i :: is, (d, random) =>
    let random := xorshift_Next random
    let other := random % modulus
    let other := if other ≥ length then other - length else other
    breakPatterns_loop a length idx modulus is (Swap d (idx - 1 + i) (a + other), random)

/-- Go's `breakPatterns_func(data, a, b)`. -/
def breakPatterns_func (d : List Nat) (a b : Nat) : List Nat :=
  let length := b - a
  if length ≥ 8 then
    let random := length
    let modulus := nextPowerOfTwo length
    let idx := a + (length / 4) * 2 - 1
    (breakPatterns_loop a length idx modulus [0, 1, 2] (d, random)).1
  else d

/-- Go's `sortedHint`. -/
inductive sortedHint where
  | unknownHint
  | increasingHint
  | decreasingHint
  deriving DecidableEq, Repr

/-- Go's `order2_func(data, a, b, swaps)`: the two indices and the new count of
swaps. -/
def order2_func (lt : Nat → Nat → Bool) (d : List Nat) (a b swaps : Nat) : Nat × Nat × Nat :=
  if Less lt d b a then (b, a, swaps + 1) else (a, b, swaps)

/-- Go's `median_func(data, a, b, c, swaps)`: the index of the median and the
new count of swaps. -/
def median_func (lt : Nat → Nat → Bool) (d : List Nat) (a b c swaps : Nat) : Nat × Nat :=
  let r1 := order2_func lt d a b swaps
  let r2 := order2_func lt d r1.2.1 c r1.2.2
  let r3 := order2_func lt d r1.1 r2.1 r2.2.2
  (r3.2.1, r3.2.2)

/-- Go's `medianAdjacent_func(data, a, swaps)`. -/
def medianAdjacent_func (lt : Nat → Nat → Bool) (d : List Nat) (a swaps : Nat) : Nat × Nat :=
  median_func lt d (a - 1) a (a + 1) swaps

/-- Go's `choosePivot_func(data, a, b)` with `shortestNinther = 50` and
`maxSwaps = 4 * 3`. -/
def choosePivot_func (lt : Nat → Nat → Bool) (d : List Nat) (a b : Nat) : Nat × sortedHint :=
  let l := b - a
  let swaps := 0
  let i := a + l / 4 * 1
  let j := a + l / 4 * 2
  let k := a + l / 4 * 3
  let r :=
    if l ≥ 8 then
      if l ≥ 50 then
        let ri := medianAdjacent_func lt d i swaps
        let rj := medianAdjacent_func lt d j ri.2
        let rk := medianAdjacent_func lt d k rj.2
        median_func lt d ri.1 rj.1 rk.1 rk.2
      else median_func lt d i j k swaps
    else (j, swaps)
  if r.2 = 0 then (r.1, .increasingHint)
  else if r.2 = 12 then (r.1, .decreasingHint)
  else (r.1, .unknownHint)

/-- The loop `for i < j` of `reverseRange_func`. -/
def reverseRange_loop : Nat → List Nat → Nat → Nat → List Nat
  | 0, d, _, _ => d
  | fuel + 1, d, i, j => if i < j then reverseRange_loop fuel (Swap d i j) (i + 1) (j - 1) else d

/-- Go's `reverseRange_func(data, a, b)`. -/
def reverseRange_func (d : List Nat) (a b : Nat) : List Nat :=
  reverseRange_loop b d a (b - 1)

/-- Go's `pdqsort_func(data, a, b, limit)` with `maxInsertion = 12`.  One round
of the `for` loop per unit of the first argument; `wasBalanced` and
`wasPartitioned` are the two local variables, `true` at each call.  Every round
shortens `data[a:b]`, so as many rounds as the slice is long are enough. -/
def pdqsort_func (lt : Nat → Nat → Bool) :
    Nat → List Nat → Nat → Nat → Nat → Bool → Bool → List Nat
  | 0, d, _, _, _, _, _ => d
  | fuel + 1, d, a, b, limit, wasBalanced, wasPartitioned =>
    let length := b - a
    if length ≤ 12 then insertionSort_func lt d a b
    else if limit = 0 then heapSort_func lt d a b
    else
      let d := if !wasBalanced then breakPatterns_func d a b else d
      let limit := if !wasBalanced then limit - 1 else limit
      let c := choosePivot_func lt d a b
      let d := if c.2 = .decreasingHint then reverseRange_func d a b else d
      let pivot := if c.2 = .decreasingHint then (b - 1) - (c.1 - a) else c.1
      let hint := if c.2 = .decreasingHint then sortedHint.increasingHint else c.2
      let likelySorted := wasBalanced && wasPartitioned && decide (hint = .increasingHint)
      let p := if likelySorted then partialInsertionSort_func lt d a b else (d, false)
      if p.2 then p.1
      else
        let d := p.1
        if a > 0 && !Less lt d (a - 1) pivot then
          let e := partitionEqual_func lt d a b pivot
          pdqsort_func lt fuel e.1 e.2 b limit wasBalanced wasPartitioned
        else
          let q := partition_func lt d a b pivot
          let mid := q.2.1
          let wasPartitioned := q.2.2
          let leftLen := mid - a
          let rightLen := b - mid
          let balanceThreshold := length / 8
          if leftLen < rightLen then
            pdqsort_func lt fuel (pdqsort_func lt fuel q.1 a mid limit true true)
              (mid + 1) b limit (decide (leftLen ≥ balanceThreshold)) wasPartitioned
          else
            pdqsort_func lt fuel (pdqsort_func lt fuel q.1 (mid + 1) b limit true true)
              a mid limit (decide (rightLen ≥ balanceThreshold)) wasPartitioned

/-- The order `less` on the positions of `l`: the comparison of the elements
that stood at `p` and `q` before the sort. -/
def Slice.lessAt {α : Type} (less : α → α → Bool) (l : List α) (p q : Nat) : Bool :=
  match l[p]?, l[q]? with
  | some x, some y => less x y
  | _, _ => false

/-- Go's `sort.Slice(x, less)` as an arrangement of the positions of `l`:
`pdqsort_func(lessSwap{less, swap}, 0, length, bits.Len(uint(length)))`. -/
def Slice.arrangement {α : Type} (less : α → α → Bool) (l : List α) : List Nat :=
  pdqsort_func (Slice.lessAt less l) l.length (List.range l.length) 0 l.length
    (bitsLen 64 l.length) true true

/-- Go's `sort.Slice(x, less)`: the slice after the sort. -/
def Slice {α : Type} (less : α → α → Bool) (l : List α) : List α :=
  (Slice.arrangement less l).filterMap fun p => l[p]?

end GoSort

/-- What `sort.Slice` leaves in the slice: the result of the run of `GoSort.Slice`
whenever that is a sorted rearrangement of the slice (which is what `sort.Slice`
promises, and what each concrete check below evaluates on its input), and the
result of the insertion sort otherwise. -/
def GoSort.sortSlice {α : Type} (less : α → α → Bool) (l : List α) : List α :=
  if (GoSort.Slice.arrangement less l).isPerm (List.range l.length) = true ∧
      (GoSort.Slice less l).Pairwise (fun x y => less y x = false) then GoSort.Slice less l
  else stableLib.sortSlice less l

/-- The library whose `sortSlice` is Go's `sort.Slice` as embedded in `GoSort`. -/
def pdqsortLib : GoLib where
  ToLower := asciiLower
  sortSlice := GoSort.sortSlice
  sortSlice_perm := fun {α} less l => by
    have hrange : ∀ l : List α, ((List.range l.length).filterMap fun p => l[p]?) = l := by
      intro l
      induction l using List.reverseRecOn with
      | nil => rfl
      | append_singleton t x ih =>
        have h1 : ((List.range t.length).filterMap fun p => (t ++ [x])[p]?) = t :=
          (List.filterMap_congr fun p hp =>
            List.getElem?_append_left (List.mem_range.1 hp)).trans ih
        rw [List.length_append, List.length_singleton, List.range_succ, List.filterMap_append,
          h1]
        simp
    unfold GoSort.sortSlice
    beta_reduce
    split
    · rename_i hc
      have hp := (List.isPerm_iff.1 hc.1).filterMap (fun p => l[p]?)
      rw [hrange l] at hp
      exact hp
    · exact stableLib.sortSlice_perm less l
  sortSlice_sorted := fun less l h => by
    unfold GoSort.sortSlice
    beta_reduce
    split
    · rename_i hc
      exact hc.2
    · exact stableLib.sortSlice_sorted less l h

/-- The store that holds `sampleB` and `sampleSys`, two files with the same
upload time; the dump meets `sampleSys` first. -/
def tieStore : Store := runFileOps Store.empty [.save sampleB, .save sampleSys]

/-- A file without owner, for the check of the tie order on a long listing. -/
def tieFile (id : String) (uploadTime : Int) : FileRecord :=
  { ID := id, OriginalName := id ++ ".txt", StoredPath := "/data/" ++ id, Size := 1,
    UploadTime := uploadTime, OwnerID := "", OwnerName := "", DownloadLink := "",
    IsPublic := false }

/-- The store with thirteen files: "t12", uploaded at 200, is saved first, then
"t11", ..., "t00", all uploaded at 100; the dump meets them as "t00", ...,
"t12". -/
def thirteenFilesStore : Store :=
  runFileOps Store.empty
    ((FileOp.save (tieFile "t12" 200)) ::
      ["t11", "t10", "t09", "t08", "t07", "t06", "t05", "t04", "t03", "t02", "t01", "t00"].map
        fun id => FileOp.save (tieFile id 100))

/-- The store of the spec's scenario: client "Ann" with recovery code "ABC123",
created by an upsert on the empty store. -/
def annStore : Store :=
  match UpsertClient Store.empty "id-ann" "Ann" "ABC123" 1700000000 with
  | .ok s => s
  | .error _ => Store.empty

/-- A client is stored when a client key of the system persona decodes to it. -/
def StoredClient (s : Store) (c : ClientRecord) : Prop :=
  ∃ k, HasPrefix k ClientKeyPrefix = true ∧ sdkGetClient s SystemPersona AppID k = .ok c

/-! ## Caller layer: the options of `Handler.ListFiles` (`api.go`, lines 338-367) -/

/-- The options that `Handler.ListFiles` passes to `db.ListFiles`, from the
results `page` and `limit` of the two `strconv.Atoi` calls (Go `int`s); `none`
is the 400 answer for a non-admin request without `X-Client-ID`. -/
def Handler.ListFiles.options (isAdmin : Bool) (ownerID search : String) (page limit : Int) :
    Option ListFilesOptions :=
  let page := if page < 1 then 1 else page
  let limit := if limit < 1 then 8 else limit
  let offset := wrapInt64 ((page - 1) * limit)
  let opts : ListFilesOptions :=
    { Search := search, OwnerID := "", Limit := limit, Offset := offset }
  if !isAdmin then
    if ownerID == "" then none
    else some { opts with OwnerID := ownerID }
  else some opts

/-! ## Vocabulary of the specification: sequences of calls -/

/-- The two index bounds that `ListFiles` computes for its slice expression
(lines 184-191), as a function of `total`, `opts.Offset` and `opts.Limit`. -/
def paginationBounds (total offset limit : Int) : Int × Int :=
  let start := offset
  let start := if start > total then total else start
  let end1 := wrapInt64 (start + limit)
  let end1 := if limit ≤ 0 || end1 > total then total else end1
  (start, end1)

/-- A call of the Client Directory that writes. -/
inductive ClientOp where
  | upsert (id name recoveryCode : String) (lastActive : Int)
  | updateLastActive (id : String) (lastActive : Int)
  | updateAdminStatus (id : String) (isAdmin : Bool)
  | updateFull (id name recoveryCode : String) (isAdmin : Bool)
  | delete (id : String)
deriving DecidableEq, Repr

/-- The store after one call of the Client Directory; a call that returns an
error leaves it as it was. -/
def applyClientOp (s : Store) : ClientOp → Store
  | .upsert id name recoveryCode lastActive =>
    match UpsertClient s id name recoveryCode lastActive with
    | .ok s1 => s1
    | .error _ => s
  | .updateLastActive id lastActive =>
    match UpdateClientLastActive s id lastActive with
    | .ok s1 => s1
    | .error _ => s
  | .updateAdminStatus id isAdmin =>
    match UpdateClientAdminStatus s id isAdmin with
    | .ok s1 => s1
    | .error _ => s
  | .updateFull id name recoveryCode isAdmin =>
    match UpdateClientFull s id name recoveryCode isAdmin with
    | .ok s1 => s1
    | .error _ => s
  | .delete id =>
    match DeleteClient s id with
    | .ok s1 => s1
    | .error _ => s

/-- The store after a sequence of Client Directory calls. -/
def runClientOps (s : Store) (ops : List ClientOp) : Store := ops.foldl applyClientOp s

/-- A writing call of either component. -/
inductive Op where
  | file (op : FileOp)
  | client (op : ClientOp)
deriving DecidableEq, Repr

/-- The store after one call of either component. -/
def applyOp (s : Store) : Op → Store
  | .file op => applyFileOp s op
  | .client op => applyClientOp s op

/-- The store after a sequence of Client Directory and File Registry calls. -/
def runOps (s : Store) (ops : List Op) : Store := ops.foldl applyOp s

/-- No two stored clients with different ids share a recovery code, and every
stored client carries the id of its key. -/
def UniqueCodes (s : Store) : Prop :=
  (∀ id1 id2 c1 c2, GetClient s id1 = .ok c1 → GetClient s id2 = .ok c2 →
    c1.RecoveryCode = c2.RecoveryCode → id1 = id2) ∧
  (∀ id c, GetClient s id = .ok c → c.ID = id)

/-- A call supplies a fresh code when no stored client with another id carries
the recovery code that the call writes; calls that write no recovery code carry
no condition. -/
def FreshCode (s : Store) : ClientOp → Prop
  | .upsert id _ recoveryCode _ =>
    ∀ id1 c1, GetClient s id1 = .ok c1 → c1.RecoveryCode = recoveryCode → id1 = id
  | .updateFull id _ recoveryCode _ =>
    ∀ id1 c1, GetClient s id1 = .ok c1 → c1.RecoveryCode = recoveryCode → id1 = id
  | _ => True

/-- A sequence of calls each of which supplies a fresh code when it is made. -/
def FreshCodes : Store → List ClientOp → Prop
  | _, [] => True
  | s, op :: ops => FreshCode s op ∧ FreshCodes (applyClientOp s op) ops

/-- Every key with the client prefix lives in the system persona. -/
def ClientKeysInSystem (s : Store) : Prop :=
  ∀ p a k v, s.Get p a k = .ok v → HasPrefix k ClientKeyPrefix = true → p = SystemPersona

/-- The store with the file id "f1" saved for "u1" and then for "u2", while
only "u1" is a client ("Ann"). -/
def twoOwnersStore : Store :=
  runOps Store.empty
    [.client (.upsert "u1" "Ann" "ABC123" 1700000000), .file (.save sampleA),
      .file (.save sampleA2)]

/-- The store with two clients of the same name, "id-2" written last. -/
def sameNameStore : Store :=
  runClientOps Store.empty
    [.upsert "id-1" "Ann" "CODE-1" 1700000000, .upsert "id-2" "Ann" "CODE-2" 1700000001]

/-- The store with thirteen clients: "c12", named "Aaron", is written first,
then "c11", ..., "c00", all named "Ann"; the scan meets them as "c00", ...,
"c12". -/
def thirteenClientsStore : Store :=
  runClientOps Store.empty
    ((ClientOp.upsert "c12" "Aaron" "CODE-c12" 1700000000) ::
      ["c11", "c10", "c09", "c08", "c07", "c06", "c05", "c04", "c03", "c02", "c01", "c00"].map
        fun id => ClientOp.upsert id "Ann" ("CODE-" ++ id) 1700000000)

/-- Every key "file:"+id that holds a file record is held by no other persona,
and the record carries the id `id`. -/
def FilesKeyedById (s : Store) : Prop :=
  ∀ id p r, s.Get p AppID (FileKeyPrefix ++ id) = .ok (.file r) →
    r.ID = id ∧ ∀ q w, s.Get q AppID (FileKeyPrefix ++ id) = .ok w → q = p

/-- The store with the client "u1" ("Ann") and the two sample files, of "u1" and
of "u2". -/
def annFilesStore : Store :=
  runFileOps (applyClientOp Store.empty (.upsert "u1" "Ann" "ABC123" 1700000000))
    [.save sampleA, .save sampleB]

/-- The record that `UpsertClient` writes: a new client without the admin flag,
or the stored client with name, recovery code and last activity replaced. -/
def upsertedClient (s : Store) (id name recoveryCode : String) (lastActive : Int) :
    ClientRecord :=
  match GetClient s id with
  | .error _ =>
    { ID := id, Name := name, RecoveryCode := recoveryCode, LastActive := lastActive,
      IsAdmin := false }
  | .ok client =>
    { client with Name := name, RecoveryCode := recoveryCode, LastActive := lastActive }

/-- The client id that a call addresses. -/
def ClientOp.target : ClientOp → String
  | .upsert id _ _ _ => id
  | .updateLastActive id _ => id
  | .updateAdminStatus id _ => id
  | .updateFull id _ _ _ => id
  | .delete id => id

/-- Decoding of a stored value at the `ClientRecord` shape. -/
def decodeClient : Value → Option ClientRecord
  | .client c => some c
  | _ => none

/-- The decodable clients of the store in scan order: one for each client key
of the system persona whose value decodes. -/
def storedClients (s : Store) : List ClientRecord :=
  s.data.entries.filterMap fun e =>
    if (e.1.persona = SystemPersona ∧ e.1.app = AppID) ∧
        HasPrefix e.1.key ClientKeyPrefix = true then decodeClient e.2
    else none

/-! # Properties -/

/-! ## The engine model: reading after writing -/

theorem Store.Get_eq_ok {s : Store} {p a k : String} {v : Value} :
    s.Get p a k = .ok v ↔ s.val ⟨p, a, k⟩ = some v := by
  unfold Store.Get Store.val
  cases h : s.data.lookup ⟨p, a, k⟩ <;> simp

theorem Store.Get_eq_error {s : Store} {p a k : String} {e : Error} :
    s.Get p a k = .error e ↔ e = .notFound ∧ s.val ⟨p, a, k⟩ = none := by
  unfold Store.Get Store.val
  cases h : s.data.lookup ⟨p, a, k⟩ <;> simp [eq_comm]

theorem Store.val_empty (l : Loc) : Store.empty.val l = none := by
  simp [Store.val, Store.empty]

theorem Store.val_Set {s s1 : Store} {p a k : String} {v : Value}
    (h : s.Set p a k v = .ok s1) (l : Loc) :
    s1.val l = if l = ⟨p, a, k⟩ then some v else s.val l := by
  simp only [Store.Set, Except.ok.injEq] at h
  subst h
  by_cases hl : l = ⟨p, a, k⟩
  · subst hl; simp [Store.val]
  · simp [Store.val, hl, AList.lookup_insert_ne hl]

theorem Store.val_Delete {s s1 : Store} {p a k : String}
    (h : s.Delete p a k = .ok s1) (l : Loc) :
    s1.val l = if l = ⟨p, a, k⟩ then none else s.val l := by
  simp only [Store.Delete, Except.ok.injEq] at h
  subst h
  by_cases hl : l = ⟨p, a, k⟩
  · subst hl; simp [Store.val]
  · simp [Store.val, hl, AList.lookup_erase_ne hl]

theorem Store.Move_ok {s s1 : Store} {p q a k : String}
    (h : s.Move p q a k = .ok s1) :
    ∃ v, s.val ⟨p, a, k⟩ = some v ∧
      ∀ l, s1.val l = if l = ⟨q, a, k⟩ then some v
        else if l = ⟨p, a, k⟩ then none else s.val l := by
  unfold Store.Move at h
  cases hv : s.data.lookup ⟨p, a, k⟩ with
  | none => simp [hv] at h
  | some v =>
    simp only [hv, Except.ok.injEq] at h
    subst h
    refine ⟨v, hv, fun l => ?_⟩
    by_cases hq : l = ⟨q, a, k⟩
    · subst hq; simp [Store.val]
    · by_cases hp : l = ⟨p, a, k⟩
      · subst hp; simp [Store.val, hq, AList.lookup_insert_ne hq]
      · simp [Store.val, hq, hp, AList.lookup_insert_ne hq, AList.lookup_erase_ne hp]

theorem Store.Move_error {s : Store} {p q a k : String} {e : Error}
    (h : s.Move p q a k = .error e) : s.val ⟨p, a, k⟩ = none := by
  unfold Store.Move at h
  cases hv : s.data.lookup ⟨p, a, k⟩ with
  | none => exact hv
  | some v => simp [hv] at h

theorem Store.GetGlobal_ok {s : Store} {a k : String} {v : Value} {p : String}
    (h : s.GetGlobal a k = .ok (v, p)) : s.val ⟨p, a, k⟩ = some v := by
  unfold Store.GetGlobal at h
  cases hf : s.data.entries.find? (fun e => e.1.app == a && e.1.key == k) with
  | none => simp [hf] at h
  | some e =>
    simp only [hf, Except.ok.injEq, Prod.mk.injEq] at h
    have hmem := List.mem_of_find?_eq_some hf
    have hp := List.find?_some hf
    simp only [Bool.and_eq_true, beq_iff_eq] at hp
    obtain ⟨⟨ep, ea, ek⟩, ev⟩ := e
    simp only at hp h
    obtain ⟨rfl, rfl⟩ := hp
    obtain ⟨rfl, rfl⟩ := h
    exact AList.mem_lookup_iff.2 hmem

theorem Store.GetGlobal_error {s : Store} {a k : String} {e : Error}
    (h : s.GetGlobal a k = .error e) (p : String) : s.val ⟨p, a, k⟩ = none := by
  unfold Store.GetGlobal at h
  cases hf : s.data.entries.find? (fun e => e.1.app == a && e.1.key == k) with
  | some e0 => simp [hf] at h
  | none =>
    cases hv : s.val ⟨p, a, k⟩ with
    | none => rfl
    | some v =>
      have hmem : (⟨⟨p, a, k⟩, v⟩ : Sigma fun _ : Loc => Value) ∈ s.data.entries :=
        AList.mem_lookup_iff.1 hv
      have := List.find?_eq_none.1 hf _ hmem
      simp at this

theorem Store.GetGlobal_isOk {s : Store} {a k p : String} {v : Value}
    (h : s.val ⟨p, a, k⟩ = some v) : ∃ w q, s.GetGlobal a k = .ok (w, q) := by
  cases hg : s.GetGlobal a k with
  | error e => rw [Store.GetGlobal_error hg p] at h; cases h
  | ok r => exact ⟨r.1, r.2, rfl⟩

/-! ## File Registry: what each call reads and writes -/

theorem append_right_cancel {a b c : String} (h : a ++ b = a ++ c) : b = c := by
  have h1 := congrArg String.data h
  simp only [String.data_append, List.append_cancel_left_eq] at h1
  exact String.ext h1

theorem fileLoc_inj {p q id id1 : String} : fileLoc p id = fileLoc q id1 ↔ p = q ∧ id = id1 := by
  constructor
  · intro h
    simp only [fileLoc, Loc.mk.injEq, true_and] at h
    exact ⟨h.1, append_right_cancel h.2⟩
  · rintro ⟨rfl, rfl⟩; rfl

theorem resolvePersona_eq (ownerID : String) :
    (if (ownerID == "") = true then SystemPersona else ownerID) = resolvePersona ownerID := by
  unfold resolvePersona
  by_cases h : ownerID = "" <;> simp [h]

theorem ownerName_block (s : Store) (record : FileRecord) :
    (if (record.OwnerID != "") = true then
        match GetClient s record.OwnerID with
        | .ok client => Except.ok (ε := Error) { record with OwnerName := client.Name }
        | .error _ => .ok { record with OwnerName := "Unknown" }
      else .ok { record with OwnerName := "Admin" })
      = .ok { record with OwnerName := resolvedOwnerName s record.OwnerID } := by
  unfold resolvedOwnerName
  by_cases h : record.OwnerID = ""
  · simp [h]
  · simp only [bne_iff_ne, ne_eq, h, not_false_eq_true, if_true, if_false]
    cases GetClient s record.OwnerID <;> rfl

theorem sdkGetFile_eq (s : Store) (p a k : String) :
    sdkGetFile s p a k =
      match s.val ⟨p, a, k⟩ with
      | some (.file r) => .ok r
      | some _ => .error .decode
      | none => .error .notFound := by
  unfold sdkGetFile Store.Get Store.val
  cases s.data.lookup ⟨p, a, k⟩ with
  | none => rfl
  | some v => cases v <;> rfl

theorem sdkGetClient_eq (s : Store) (p a k : String) :
    sdkGetClient s p a k =
      match s.val ⟨p, a, k⟩ with
      | some (.client c) => .ok c
      | some _ => .error .decode
      | none => .error .notFound := by
  unfold sdkGetClient Store.Get Store.val
  cases s.data.lookup ⟨p, a, k⟩ with
  | none => rfl
  | some v => cases v <;> rfl

theorem GetClient_eq (s : Store) (id : String) :
    GetClient s id =
      match s.val (clientLoc id) with
      | some (.client c) => .ok c
      | some _ => .error .decode
      | none => .error .notFound := by
  unfold GetClient
  rw [sdkGetClient_eq]
  unfold clientLoc
  cases s.val ⟨SystemPersona, AppID, ClientKeyPrefix ++ id⟩ with
  | none => rfl
  | some v => cases v <;> rfl

theorem GetFileRecord_ok {s : Store} {id : String} {rec : FileRecord}
    (h : GetFileRecord s id = .ok rec) :
    ∃ p r, s.GetGlobal AppID (FileKeyPrefix ++ id) = .ok (.file r, p) ∧
      s.val (fileLoc p id) = some (.file r) ∧
      rec = { r with OwnerName := resolvedOwnerName s r.OwnerID } := by
  unfold GetFileRecord at h
  cases hg : s.GetGlobal AppID (FileKeyPrefix ++ id) with
  | error e => simp [hg] at h
  | ok vp =>
    obtain ⟨v, p⟩ := vp
    have hv := Store.GetGlobal_ok hg
    simp only [hg] at h
    rw [sdkGetFile_eq, hv] at h
    cases v with
    | file r =>
      simp only [ownerName_block, Except.ok.injEq] at h
      exact ⟨p, r, rfl, hv, h.symm⟩
    | client c => simp at h
    | other raw => simp at h

theorem GetFileRecord_of_GetGlobal {s : Store} {id p : String} {r : FileRecord}
    (hg : s.GetGlobal AppID (FileKeyPrefix ++ id) = .ok (.file r, p)) :
    GetFileRecord s id = .ok { r with OwnerName := resolvedOwnerName s r.OwnerID } := by
  have hv := Store.GetGlobal_ok hg
  unfold GetFileRecord
  simp only [hg]
  rw [sdkGetFile_eq, hv]
  simp only [ownerName_block]

theorem GetFileRecord_error {s : Store} {id : String} {e : Error}
    (h : GetFileRecord s id = .error e) :
    (e = .notFound ∧ ∀ p, s.val (fileLoc p id) = none) ∨
    (e = .decode ∧ ∃ p v, s.val (fileLoc p id) = some v ∧ ∀ r, v ≠ .file r) := by
  unfold GetFileRecord at h
  cases hg : s.GetGlobal AppID (FileKeyPrefix ++ id) with
  | error e1 =>
    simp only [hg, Except.error.injEq] at h
    subst h
    left
    refine ⟨?_, fun p => Store.GetGlobal_error hg p⟩
    unfold Store.GetGlobal at hg
    split at hg <;> simp at hg
    exact hg.symm
  | ok vp =>
    obtain ⟨v, p⟩ := vp
    have hv := Store.GetGlobal_ok hg
    simp only [hg] at h
    rw [sdkGetFile_eq, hv] at h
    cases v with
    | file r => simp only [ownerName_block] at h; cases h
    | client c =>
      simp only [Except.error.injEq] at h
      exact Or.inr ⟨h.symm, p, _, hv, fun r => by simp⟩
    | other raw =>
      simp only [Except.error.injEq] at h
      exact Or.inr ⟨h.symm, p, _, hv, fun r => by simp⟩

theorem SaveFileRecord_ok (s : Store) (r : FileRecord) :
    ∃ s1, SaveFileRecord s r = .ok s1 ∧
      ∀ l, s1.val l =
        if l = fileLoc (resolvePersona r.OwnerID) r.ID then some (.file r) else s.val l := by
  unfold SaveFileRecord
  simp only [resolvePersona_eq]
  exact ⟨_, rfl, fun l => Store.val_Set rfl l⟩

theorem UpdateFileRecord_ok {s s1 : Store} {id name ownerID : String} {isPublic : Bool}
    (h : UpdateFileRecord s id name ownerID isPublic = .ok s1) :
    ∃ p r, s.GetGlobal AppID (FileKeyPrefix ++ id) = .ok (.file r, p) ∧
      (resolvePersona r.OwnerID = resolvePersona ownerID →
        ∀ l, s1.val l =
          if l = fileLoc (resolvePersona ownerID) r.ID then
            some (.file (updatedRecord s r name ownerID isPublic))
          else s.val l) ∧
      (resolvePersona r.OwnerID ≠ resolvePersona ownerID →
        ∃ v, s.val (fileLoc (resolvePersona r.OwnerID) id) = some v ∧
          ∀ l, s1.val l =
            if l = fileLoc (resolvePersona ownerID) r.ID then
              some (.file (updatedRecord s r name ownerID isPublic))
            else if l = fileLoc (resolvePersona ownerID) id then some v
            else if l = fileLoc (resolvePersona r.OwnerID) id then none
            else s.val l) := by
  unfold UpdateFileRecord at h
  cases hgf : GetFileRecord s id with
  | error e => simp [hgf] at h
  | ok rec =>
    obtain ⟨p, r, hg, -, hrec⟩ := GetFileRecord_ok hgf
    subst hrec
    simp only [hgf, resolvePersona_eq, bne_iff_ne, ne_eq, ite_not] at h
    refine ⟨p, r, hg, ?_, ?_⟩
    · intro heq
      rw [if_pos heq] at h
      exact fun l => Store.val_Set h l
    · intro hne
      rw [if_neg hne] at h
      cases hm : s.Move (resolvePersona r.OwnerID) (resolvePersona ownerID) AppID
          (FileKeyPrefix ++ id) with
      | error e => simp [hm] at h
      | ok s2 =>
        simp only [hm] at h
        obtain ⟨v, hv, hs2⟩ := Store.Move_ok hm
        refine ⟨v, hv, fun l => ?_⟩
        rw [Store.val_Set h l, hs2 l]
        rfl

theorem DeleteFileRecord_ok {s s1 : Store} {id : String}
    (h : DeleteFileRecord s id = .ok s1) :
    ∃ p r, s.GetGlobal AppID (FileKeyPrefix ++ id) = .ok (.file r, p) ∧
      ∀ l, s1.val l = if l = fileLoc (resolvePersona r.OwnerID) id then none else s.val l := by
  unfold DeleteFileRecord at h
  cases hgf : GetFileRecord s id with
  | error e => simp [hgf] at h
  | ok rec =>
    obtain ⟨p, r, hg, -, hrec⟩ := GetFileRecord_ok hgf
    subst hrec
    simp only [hgf, resolvePersona_eq] at h
    exact ⟨p, r, hg, fun l => Store.val_Delete h l⟩

/-! ## The storage-location invariant -/

theorem FileInv_empty : FileInv Store.empty := by
  intro id p v h
  simp [Store.val_empty] at h

theorem FileInv_mono {s s1 : Store} (hinv : FileInv s)
    (hsub : ∀ l v, s1.val l = some v → s.val l = some v) : FileInv s1 := by
  intro id p v hv
  refine ⟨(hinv id p v (hsub _ _ hv)).1, fun q w hq => ?_⟩
  exact (hinv id p v (hsub _ _ hv)).2 q w (hsub _ _ hq)

theorem FileInv_write {s s1 : Store} {P i : String} {R : FileRecord} (hinv : FileInv s)
    (hR : R.ID = i) (hP : P = resolvePersona R.OwnerID)
    (h1 : s1.val (fileLoc P i) = some (.file R))
    (h2 : ∀ l v, l ≠ fileLoc P i → s1.val l = some v → s.val l = some v)
    (h3 : ∀ q v, q ≠ P → s1.val (fileLoc q i) = some v → False) : FileInv s1 := by
  intro id p v hv
  by_cases hl : fileLoc p id = fileLoc P i
  · obtain ⟨rfl, rfl⟩ := fileLoc_inj.1 hl
    rw [h1] at hv
    cases hv
    refine ⟨⟨R, rfl, hR, hP⟩, fun q w hq => ?_⟩
    by_contra hne
    exact h3 q w hne hq
  · have hv1 := h2 _ _ hl hv
    refine ⟨(hinv id p v hv1).1, fun q w hq => ?_⟩
    by_cases hq1 : fileLoc q id = fileLoc P i
    · obtain ⟨rfl, rfl⟩ := fileLoc_inj.1 hq1
      exact absurd hv (fun hv => h3 p v (fun hp => hl (by rw [hp])) hv)
    · exact (hinv id p v hv1).2 q w (h2 _ _ hq1 hq)

theorem FileInv_save {s s1 : Store} {r : FileRecord} (hinv : FileInv s)
    (hfresh : FreshSave s (.save r)) (h : SaveFileRecord s r = .ok s1) : FileInv s1 := by
  obtain ⟨s2, h2, hval⟩ := SaveFileRecord_ok s r
  rw [h] at h2
  cases h2
  refine FileInv_write (P := resolvePersona r.OwnerID) (i := r.ID) (R := r) hinv rfl rfl ?_ ?_ ?_
  · rw [hval, if_pos rfl]
  · intro l v hl hv
    rwa [hval, if_neg hl] at hv
  · intro q v hq hv
    have hne : fileLoc q r.ID ≠ fileLoc (resolvePersona r.OwnerID) r.ID :=
      fun heq => hq (fileLoc_inj.1 heq).1
    rw [hval, if_neg hne] at hv
    exact hq (hfresh q v (Store.Get_eq_ok.2 hv))

theorem FileInv_update {s s1 : Store} {id name ownerID : String} {isPublic : Bool}
    (hinv : FileInv s) (h : UpdateFileRecord s id name ownerID isPublic = .ok s1) :
    FileInv s1 := by
  obtain ⟨p, r, hg, hsame, hmove⟩ := UpdateFileRecord_ok h
  have hv : s.val (fileLoc p id) = some (.file r) := Store.GetGlobal_ok hg
  obtain ⟨⟨r1, hr1, hid, hp⟩, huniq⟩ := hinv id p _ hv
  cases hr1
  by_cases hpers : resolvePersona r.OwnerID = resolvePersona ownerID
  · have hval := hsame hpers
    rw [hid] at hval
    refine FileInv_write (P := resolvePersona ownerID) (i := id)
      (R := updatedRecord s r name ownerID isPublic) hinv hid rfl ?_ ?_ ?_
    · rw [hval, if_pos rfl]
    · intro l v hl hv1
      rwa [hval, if_neg hl] at hv1
    · intro q v hq hv1
      have hne : fileLoc q id ≠ fileLoc (resolvePersona ownerID) id :=
        fun heq => hq (fileLoc_inj.1 heq).1
      rw [hval, if_neg hne] at hv1
      exact hq ((huniq q v hv1).trans (hp.trans hpers))
  · obtain ⟨v0, -, hval⟩ := hmove hpers
    rw [hid] at hval
    refine FileInv_write (P := resolvePersona ownerID) (i := id)
      (R := updatedRecord s r name ownerID isPublic) hinv hid rfl ?_ ?_ ?_
    · rw [hval, if_pos rfl]
    · intro l v hl hv1
      rw [hval, if_neg hl, if_neg hl] at hv1
      split at hv1
      · cases hv1
      · exact hv1
    · intro q v hq hv1
      have hne : fileLoc q id ≠ fileLoc (resolvePersona ownerID) id :=
        fun heq => hq (fileLoc_inj.1 heq).1
      rw [hval, if_neg hne, if_neg hne] at hv1
      split at hv1
      · cases hv1
      · rename_i hold
        exact hold (by rw [huniq q v hv1, hp])

theorem FileInv_delete {s s1 : Store} {id : String}
    (hinv : FileInv s) (h : DeleteFileRecord s id = .ok s1) : FileInv s1 := by
  obtain ⟨p, r, -, hval⟩ := DeleteFileRecord_ok h
  refine FileInv_mono hinv fun l v hv => ?_
  rw [hval] at hv
  split at hv
  · cases hv
  · exact hv

theorem FileInv_applyFileOp {s : Store} {op : FileOp} (hinv : FileInv s)
    (hfresh : FreshSave s op) : FileInv (applyFileOp s op) := by
  cases op with
  | save r =>
    simp only [applyFileOp]
    cases h : SaveFileRecord s r with
    | error e => exact hinv
    | ok s1 => exact FileInv_save hinv hfresh h
  | update id name ownerID isPublic =>
    simp only [applyFileOp]
    cases h : UpdateFileRecord s id name ownerID isPublic with
    | error e => exact hinv
    | ok s1 => exact FileInv_update hinv h
  | delete id =>
    simp only [applyFileOp]
    cases h : DeleteFileRecord s id with
    | error e => exact hinv
    | ok s1 => exact FileInv_delete hinv h

theorem FileInv_runFileOps (ops : List FileOp) :
    ∀ s : Store, FileInv s → FreshSaves s ops → FileInv (runFileOps s ops) := by
  induction ops with
  | nil => intro s hinv _; exact hinv
  | cons op ops ih =>
    intro s hinv hfresh
    exact ih (applyFileOp s op) (FileInv_applyFileOp hinv hfresh.1) hfresh.2

theorem LocationInv_of_FileInv {s : Store} (hinv : FileInv s) : LocationInv s := by
  intro id
  refine ⟨fun p q v w hp hq => ?_, fun p v hp => ?_⟩
  · exact ((hinv id q w (Store.Get_eq_ok.1 hq)).2 p v (Store.Get_eq_ok.1 hp))
  · obtain ⟨r, hr, -, hpers⟩ := (hinv id p v (Store.Get_eq_ok.1 hp)).1
    exact ⟨r, hr, hpers⟩

/-! ## The global lookup after a write -/

theorem find?_kerase_of_false {f : (Sigma fun _ : Loc => Value) → Bool} {a : Loc}
    (h : ∀ b, f ⟨a, b⟩ = false) (l : List (Sigma fun _ : Loc => Value)) :
    (List.kerase a l).find? f = l.find? f := by
  induction l with
  | nil => rfl
  | cons e t ih =>
    obtain ⟨a1, b1⟩ := e
    by_cases ha : a = a1
    · subst ha
      have hk : List.kerase a ((⟨a, b1⟩ : Sigma fun _ : Loc => Value) :: t) = t :=
        List.kerase_cons_eq rfl
      rw [hk, List.find?_cons, h b1]
    · rw [List.kerase_cons_ne ha, List.find?_cons, List.find?_cons, ih]

theorem Store.GetGlobal_Set_same {s s1 : Store} {p a k : String} {v : Value}
    (h : s.Set p a k v = .ok s1) : s1.GetGlobal a k = .ok (v, p) := by
  simp only [Store.Set, Except.ok.injEq] at h
  subst h
  simp [Store.GetGlobal, AList.insert_entries]

theorem Store.GetGlobal_Set_other {s s1 : Store} {p a k : String} {v : Value}
    (h : s.Set p a k v = .ok s1) {a1 k1 : String} (hne : ¬ (a = a1 ∧ k = k1)) :
    s1.GetGlobal a1 k1 = s.GetGlobal a1 k1 := by
  simp only [Store.Set, Except.ok.injEq] at h
  subst h
  have hf : ∀ b : Value, (fun e : Sigma fun _ : Loc => Value =>
      e.1.app == a1 && e.1.key == k1) ⟨⟨p, a, k⟩, b⟩ = false := by
    intro b
    simpa using hne
  have hf1 := hf v
  unfold Store.GetGlobal
  rw [AList.insert_entries, List.find?_cons, find?_kerase_of_false hf]
  simp only at hf1
  rw [hf1]

theorem Store.GetGlobal_Move_same {s s1 : Store} {p q a k : String}
    (h : s.Move p q a k = .ok s1) :
    ∃ v, s.val ⟨p, a, k⟩ = some v ∧ s1.GetGlobal a k = .ok (v, q) := by
  unfold Store.Move at h
  cases hv : s.data.lookup ⟨p, a, k⟩ with
  | none => simp [hv] at h
  | some v =>
    simp only [hv, Except.ok.injEq] at h
    subst h
    exact ⟨v, hv, by simp [Store.GetGlobal, AList.insert_entries]⟩

theorem key_ne_of_id_ne {id id1 : String} (h : id ≠ id1) :
    ¬ (AppID = AppID ∧ FileKeyPrefix ++ id = FileKeyPrefix ++ id1) :=
  fun hk => h (append_right_cancel hk.2)

theorem clientLoc_ne_fileLoc (cid p id : String) : clientLoc cid ≠ fileLoc p id := by
  intro h
  simp only [clientLoc, fileLoc, Loc.mk.injEq] at h
  have h1 := congrArg String.data h.2.2
  simp [ClientKeyPrefix, FileKeyPrefix, String.data_append] at h1

theorem resolvedOwnerName_congr {s s1 : Store} (h : ∀ cid, s1.val (clientLoc cid) = s.val (clientLoc cid))
    (ownerID : String) : resolvedOwnerName s1 ownerID = resolvedOwnerName s ownerID := by
  unfold resolvedOwnerName
  rw [GetClient_eq, GetClient_eq, h]

theorem applyFileOp_save_val (s : Store) (r : FileRecord) (l : Loc) :
    (applyFileOp s (.save r)).val l =
      if l = fileLoc (resolvePersona r.OwnerID) r.ID then some (.file r) else s.val l := by
  obtain ⟨s1, h, hval⟩ := SaveFileRecord_ok s r
  simp only [applyFileOp, h]
  exact hval l

theorem UpdateFileRecord_steps {s s1 : Store} {id name ownerID : String} {isPublic : Bool}
    (h : UpdateFileRecord s id name ownerID isPublic = .ok s1) :
    ∃ p r s2, s.GetGlobal AppID (FileKeyPrefix ++ id) = .ok (.file r, p) ∧
      (resolvePersona r.OwnerID = resolvePersona ownerID → s2 = s) ∧
      (resolvePersona r.OwnerID ≠ resolvePersona ownerID →
        s.Move (resolvePersona r.OwnerID) (resolvePersona ownerID) AppID
          (FileKeyPrefix ++ id) = .ok s2) ∧
      s2.Set (resolvePersona ownerID) AppID (FileKeyPrefix ++ r.ID)
        (.file (updatedRecord s r name ownerID isPublic)) = .ok s1 := by
  unfold UpdateFileRecord at h
  cases hgf : GetFileRecord s id with
  | error e => simp [hgf] at h
  | ok rec =>
    obtain ⟨p, r, hg, -, hrec⟩ := GetFileRecord_ok hgf
    subst hrec
    simp only [hgf, resolvePersona_eq, bne_iff_ne, ne_eq, ite_not] at h
    by_cases heq : resolvePersona r.OwnerID = resolvePersona ownerID
    · rw [if_pos heq] at h
      exact ⟨p, r, s, hg, fun _ => rfl, fun hne => absurd heq hne, h⟩
    · rw [if_neg heq] at h
      cases hm : s.Move (resolvePersona r.OwnerID) (resolvePersona ownerID) AppID
          (FileKeyPrefix ++ id) with
      | error e => simp [hm] at h
      | ok s2 =>
        simp only [hm] at h
        exact ⟨p, r, s2, hg, fun he => absurd he heq, fun _ => hm, h⟩

/-! ## C1: the storage-location invariant -/

/-- C1 (as amended): starting from the empty store, after every finite sequence
of SaveFileRecord, UpdateFileRecord and DeleteFileRecord calls in which every
save is fresh (no persona other than the record's own holds the key when the
save is made), each key "file:"+id is held by at most one persona, and the
holder is the persona of the stored record's owner_id, SystemPersona when the
owner_id is empty. -/
theorem storage_location_invariant (ops : List FileOp)
    (hfresh : FreshSaves Store.empty ops) : LocationInv (runFileOps Store.empty ops) :=
  LocationInv_of_FileInv (FileInv_runFileOps ops Store.empty FileInv_empty hfresh)

/-- C1, concrete check: two fresh saves, a change of owner and a delete. -/
theorem storage_location_invariant_witness :
    FreshSaves Store.empty
        [.save sampleA, .save sampleB, .update "f1" "renamed.txt" "u2" true, .delete "f2"] ∧
      LocationInv (runFileOps Store.empty
        [.save sampleA, .save sampleB, .update "f1" "renamed.txt" "u2" true, .delete "f2"]) := by
  have hfresh : FreshSaves Store.empty
      [.save sampleA, .save sampleB, .update "f1" "renamed.txt" "u2" true, .delete "f2"] := by
    refine ⟨?_, ?_, trivial, trivial, trivial⟩
    · intro p v h
      rw [Store.Get_eq_ok, Store.val_empty] at h
      cases h
    · intro p v h
      rw [Store.Get_eq_ok] at h
      have h1 := applyFileOp_save_val Store.empty sampleA (fileLoc p sampleB.ID)
      rw [show (⟨p, AppID, FileKeyPrefix ++ sampleB.ID⟩ : Loc) = fileLoc p sampleB.ID from rfl,
        h1, Store.val_empty] at h
      split at h
      · rename_i heq
        exact absurd (fileLoc_inj.1 heq).2 (by decide)
      · cases h
  exact ⟨hfresh, storage_location_invariant _ hfresh⟩

/-- C1, counterexample to the claim as stated: saving the id "f1" for owner "u1"
and then again for owner "u2" leaves the key "file:f1" in both personas. -/
theorem storage_location_invariant_fails :
    ¬ LocationInv (runFileOps Store.empty [.save sampleA, .save sampleA2]) := by
  intro h
  have h1 := (h "f1").1 "u1" "u2" (.file sampleA) (.file sampleA2) (by decide) (by decide)
  exact absurd h1 (by decide)

/-! ## C2: relocation on a change of owner -/

/-- C2 (as amended): in every store whose global lookup finds file id in the
persona of its owner, resolve(oldOwnerID), and for every newOwnerID with
resolve(newOwnerID) ≠ resolve(oldOwnerID), after a successful
UpdateFileRecord(id, name, newOwnerID, isPublic) GetFileRecord(id) succeeds, a
direct Get of "file:"+id in the old persona fails, and a direct Get in the new
persona succeeds. -/
theorem update_relocates (s s1 : Store) (id name newOwnerID : String) (isPublic : Bool)
    (r : FileRecord)
    (hheld : s.GetGlobal AppID (FileKeyPrefix ++ id) = .ok (.file r, resolvePersona r.OwnerID))
    (hne : resolvePersona newOwnerID ≠ resolvePersona r.OwnerID)
    (hupd : UpdateFileRecord s id name newOwnerID isPublic = .ok s1) :
    (∃ r1, GetFileRecord s1 id = .ok r1) ∧
      s1.Get (resolvePersona r.OwnerID) AppID (FileKeyPrefix ++ id) = .error .notFound ∧
      (∃ v, s1.Get (resolvePersona newOwnerID) AppID (FileKeyPrefix ++ id) = .ok v) := by
  obtain ⟨p, r0, s2, hg, -, hmove, hset⟩ := UpdateFileRecord_steps hupd
  rw [hheld] at hg
  simp only [Except.ok.injEq, Prod.mk.injEq, Value.file.injEq] at hg
  obtain ⟨rfl, rfl⟩ := hg
  have hm := hmove (Ne.symm hne)
  obtain ⟨v, hv, hg2⟩ := Store.GetGlobal_Move_same hm
  obtain ⟨v1, -, hval2⟩ := Store.Move_ok hm
  have hvr : v = .file r := by
    have := Store.GetGlobal_ok hheld
    rw [hv] at this
    exact Option.some.inj this
  subst hvr
  refine ⟨?_, ?_, ?_⟩
  · by_cases hid : r.ID = id
    · rw [hid] at hset
      exact ⟨_, GetFileRecord_of_GetGlobal (Store.GetGlobal_Set_same hset)⟩
    · have hother := Store.GetGlobal_Set_other hset (key_ne_of_id_ne hid)
      rw [hg2] at hother
      exact ⟨_, GetFileRecord_of_GetGlobal hother⟩
  · rw [Store.Get_eq_error]
    refine ⟨rfl, ?_⟩
    have hl1 : (⟨resolvePersona r.OwnerID, AppID, FileKeyPrefix ++ id⟩ : Loc) ≠
        ⟨resolvePersona newOwnerID, AppID, FileKeyPrefix ++ r.ID⟩ := by
      intro h
      exact hne (Loc.mk.inj h).1.symm
    have hl2 : (⟨resolvePersona r.OwnerID, AppID, FileKeyPrefix ++ id⟩ : Loc) ≠
        ⟨resolvePersona newOwnerID, AppID, FileKeyPrefix ++ id⟩ := by
      intro h
      exact hne (Loc.mk.inj h).1.symm
    rw [Store.val_Set hset, if_neg hl1, hval2, if_neg hl2, if_pos rfl]
  · by_cases hid : r.ID = id
    · rw [hid] at hset
      exact ⟨_, Store.Get_eq_ok.2 (by rw [Store.val_Set hset, if_pos rfl])⟩
    · have hl : (⟨resolvePersona newOwnerID, AppID, FileKeyPrefix ++ id⟩ : Loc) ≠
          ⟨resolvePersona newOwnerID, AppID, FileKeyPrefix ++ r.ID⟩ := by
        intro h
        exact hid (append_right_cancel (Loc.mk.inj h).2.2).symm
      exact ⟨_, Store.Get_eq_ok.2 (by rw [Store.val_Set hset, if_neg hl, hval2, if_pos rfl])⟩

/-- C2, concrete check: the file "f1" of owner "u1" is handed to "new-owner-id",
as in step 5 of TestFileUploadAndList. -/
theorem update_relocates_witness :
    (∃ r1, GetFileRecord
        (runFileOps sampleStore [.update "f1" "updated.txt" "new-owner-id" false]) "f1"
          = .ok r1) ∧
      (runFileOps sampleStore [.update "f1" "updated.txt" "new-owner-id" false]).Get
        (resolvePersona sampleA.OwnerID) AppID (FileKeyPrefix ++ "f1") = .error .notFound ∧
      (∃ v, (runFileOps sampleStore [.update "f1" "updated.txt" "new-owner-id" false]).Get
        (resolvePersona "new-owner-id") AppID (FileKeyPrefix ++ "f1") = .ok v) :=
  update_relocates sampleStore _ "f1" "updated.txt" "new-owner-id" false sampleA
    (by decide) (by decide) (by decide)

/-- C2, counterexample to the claim as stated: the ownerless file "f3" lives in
SystemPersona; giving it the owner id that spells SystemPersona is a change of
owner_id (from the empty string) that does not change the persona, so the
direct Get in the old persona still succeeds after the update. -/
theorem update_relocates_fails :
    sampleSysStore.GetGlobal AppID (FileKeyPrefix ++ "f3")
        = .ok (.file sampleSys, resolvePersona sampleSys.OwnerID) ∧
      SystemPersona ≠ sampleSys.OwnerID ∧
      (∃ s1, UpdateFileRecord sampleSysStore "f3" "system.log" SystemPersona false = .ok s1 ∧
        ∃ v, s1.Get (resolvePersona sampleSys.OwnerID) AppID (FileKeyPrefix ++ "f3") = .ok v) := by
  refine ⟨by decide, by decide, ?_⟩
  have h : UpdateFileRecord sampleSysStore "f3" "system.log" SystemPersona false
      = .ok (runFileOps sampleSysStore [.update "f3" "system.log" SystemPersona false]) := by
    decide
  · refine ⟨_, h, ?_⟩
    obtain ⟨p, r0, s2, hg, hsame, -, hset⟩ := UpdateFileRecord_steps h
    have hg0 : sampleSysStore.GetGlobal AppID (FileKeyPrefix ++ "f3")
        = .ok (.file sampleSys, resolvePersona sampleSys.OwnerID) := by decide
    rw [hg0] at hg
    simp only [Except.ok.injEq, Prod.mk.injEq, Value.file.injEq] at hg
    obtain ⟨rfl, rfl⟩ := hg
    exact ⟨_, Store.Get_eq_ok.2 (by rw [Store.val_Set hset]; exact if_pos rfl)⟩

/-! ## C3: save then get -/

theorem val_clientLoc_Set_file {s s1 : Store} {p id : String} {v : Value}
    (h : s.Set p AppID (FileKeyPrefix ++ id) v = .ok s1) (cid : String) :
    s1.val (clientLoc cid) = s.val (clientLoc cid) := by
  rw [Store.val_Set h]
  exact if_neg (clientLoc_ne_fileLoc cid p id)

/-- C3: for every store and every file record r, SaveFileRecord(r) succeeds and
the following GetFileRecord(r.ID) succeeds and returns r with every field
unchanged except owner_name, which is the name resolved from r.owner_id at the
time of the read (whatever owner_name r carried); the save does not change what
that resolution yields. -/
theorem save_get_roundtrip (s : Store) (r : FileRecord) :
    ∃ s1, SaveFileRecord s r = .ok s1 ∧
      GetFileRecord s1 r.ID = .ok { r with OwnerName := resolvedOwnerName s1 r.OwnerID } ∧
      resolvedOwnerName s1 r.OwnerID = resolvedOwnerName s r.OwnerID := by
  refine ⟨_, rfl, ?_, ?_⟩
  · have hset : s.Set (resolvePersona r.OwnerID) AppID (FileKeyPrefix ++ r.ID) (.file r)
        = SaveFileRecord s r := by
      unfold SaveFileRecord
      simp only [resolvePersona_eq]
    exact GetFileRecord_of_GetGlobal (Store.GetGlobal_Set_same hset)
  · have hset : s.Set (resolvePersona r.OwnerID) AppID (FileKeyPrefix ++ r.ID) (.file r)
        = SaveFileRecord s r := by
      unfold SaveFileRecord
      simp only [resolvePersona_eq]
    exact resolvedOwnerName_congr (val_clientLoc_Set_file hset) _

/-! ## C4: what an update changes and what it keeps -/

/-- C4: for every store in which GetFileRecord(i) returns a record r with id i,
after a successful UpdateFileRecord(i, name, ownerID, isPublic) GetFileRecord(i)
returns a record whose original_name, owner_id and is_public are the arguments
and whose id, stored_path, size, upload_time and download_link are those of r. -/
theorem update_postcondition_and_frame (s s1 : Store) (i name ownerID : String)
    (isPublic : Bool) (r : FileRecord)
    (hget : GetFileRecord s i = .ok r) (hid : r.ID = i)
    (hupd : UpdateFileRecord s i name ownerID isPublic = .ok s1) :
    ∃ r1, GetFileRecord s1 i = .ok r1 ∧
      r1.OriginalName = name ∧ r1.OwnerID = ownerID ∧ r1.IsPublic = isPublic ∧
      r1.ID = r.ID ∧ r1.StoredPath = r.StoredPath ∧ r1.Size = r.Size ∧
      r1.UploadTime = r.UploadTime ∧ r1.DownloadLink = r.DownloadLink := by
  obtain ⟨p, r0, hg, -, hr⟩ := GetFileRecord_ok hget
  obtain ⟨p1, r1, s2, hg1, -, -, hset⟩ := UpdateFileRecord_steps hupd
  rw [hg] at hg1
  simp only [Except.ok.injEq, Prod.mk.injEq, Value.file.injEq] at hg1
  obtain ⟨rfl, rfl⟩ := hg1
  have hid0 : r0.ID = i := by rw [← hid, hr]
  rw [hid0] at hset
  refine ⟨_, GetFileRecord_of_GetGlobal (Store.GetGlobal_Set_same hset), ?_⟩
  subst hr
  exact ⟨rfl, rfl, rfl, rfl, rfl, rfl, rfl, rfl⟩

/-- C4, concrete check: the scenario of the spec, file "f1" of owner "u1" updated
with ("renamed.txt", "u2", true). -/
theorem update_postcondition_and_frame_witness :
    ∃ r1, GetFileRecord (runFileOps sampleStore [.update "f1" "renamed.txt" "u2" true]) "f1"
        = .ok r1 ∧
      r1.OriginalName = "renamed.txt" ∧ r1.OwnerID = "u2" ∧ r1.IsPublic = true ∧
      r1.ID = ({ sampleA with OwnerName := "Unknown" } : FileRecord).ID ∧
      r1.StoredPath = ({ sampleA with OwnerName := "Unknown" } : FileRecord).StoredPath ∧
      r1.Size = ({ sampleA with OwnerName := "Unknown" } : FileRecord).Size ∧
      r1.UploadTime = ({ sampleA with OwnerName := "Unknown" } : FileRecord).UploadTime ∧
      r1.DownloadLink = ({ sampleA with OwnerName := "Unknown" } : FileRecord).DownloadLink :=
  update_postcondition_and_frame sampleStore _ "f1" "renamed.txt" "u2" true
    { sampleA with OwnerName := "Unknown" } (by decide) (by decide) (by decide)

/-! ## Listing Engine: the list that is paginated -/

theorem flatMap_ite_cons_of_not_mem {α κ : Type} [DecidableEq κ] (k : κ) (e : α)
    (F : κ → List α) (ps : List κ) (h : k ∉ ps) :
    ps.flatMap (fun p => if k = p then e :: F p else F p) = ps.flatMap F := by
  refine List.flatMap_congr fun p hp => ?_
  rw [if_neg]
  rintro rfl
  exact h hp

theorem flatMap_ite_cons_perm {α κ : Type} [DecidableEq κ] (k : κ) (e : α)
    (F : κ → List α) (ps : List κ) (hnd : ps.Nodup) (h : k ∈ ps) :
    (ps.flatMap (fun p => if k = p then e :: F p else F p)).Perm (e :: ps.flatMap F) := by
  induction ps with
  | nil => cases h
  | cons q qs ih =>
    rw [List.nodup_cons] at hnd
    rw [List.flatMap_cons, List.flatMap_cons]
    by_cases hk : k = q
    · subst hk
      rw [if_pos rfl, flatMap_ite_cons_of_not_mem k e F qs hnd.1]
      exact List.Perm.refl _
    · rw [if_neg hk]
      have hmem : k ∈ qs := by
        rcases List.mem_cons.1 h with h1 | h1
        · exact absurd h1 hk
        · exact h1
      exact (List.Perm.append_left _ (ih hnd.2 hmem)).trans List.perm_middle

theorem flatMap_filter_perm {α κ : Type} [DecidableEq κ] (f : α → κ) (l : List α) :
    ∀ ps : List κ, ps.Nodup → (∀ e ∈ l, f e ∈ ps) →
      (ps.flatMap (fun p => l.filter (fun e => f e == p))).Perm l := by
  induction l with
  | nil =>
    intro ps _ _
    simp
  | cons e t ih =>
    intro ps hnd hmem
    have h1 : (fun p => (e :: t).filter (fun x => f x == p))
        = fun p => if f e = p then e :: t.filter (fun x => f x == p)
            else t.filter (fun x => f x == p) := by
      funext p
      by_cases hp : f e = p <;> simp [List.filter_cons, hp]
    rw [h1]
    refine (flatMap_ite_cons_perm (f e) e _ ps hnd (hmem e (List.mem_cons_self _ _))).trans ?_
    exact List.Perm.cons e (ih ps hnd fun x hx => hmem x (List.mem_cons_of_mem _ hx))


theorem val_of_mem_entries {s : Store} {e : Sigma fun _ : Loc => Value}
    (h : e ∈ s.data.entries) : s.val e.1 = some e.2 :=
  AList.mem_lookup_iff.2 (by cases e; exact h)

theorem sdkGetFile_of_mem {s : Store} {e : Sigma fun _ : Loc => Value}
    (h : e ∈ s.data.entries) :
    sdkGetFile s e.1.persona e.1.app e.1.key =
      match decodeFile e.2 with
      | some r => .ok r
      | none => .error .decode := by
  rw [sdkGetFile_eq, val_of_mem_entries h]
  cases e.2 <;> rfl

/-- The first loop of `ListFiles` collects, up to the order of the dump, the
stored file records that pass the visibility test. -/
theorem allRecords_perm (s : Store) (opts : ListFilesOptions) :
    (ListFiles.allRecords s opts).Perm
      ((storedFiles s).filter (visibleTo opts.OwnerID)) := by
  unfold ListFiles.allRecords Store.DumpApp storedFiles
  simp only [List.flatMap_map, List.filterMap_map]
  set es := s.data.entries.filter (fun e => e.1.app == AppID) with hes
  -- what the loop body computes at an entry
  let H : (Sigma fun _ : Loc => Value) → Option FileRecord := fun e =>
    if HasPrefix e.1.key FileKeyPrefix = true then
      (decodeFile e.2).filter (visibleTo opts.OwnerID)
    else none
  refine List.Perm.trans (List.Perm.of_eq (List.flatMap_congr
    (g := fun p => (es.filter (fun e => e.1.persona == p)).filterMap H)
    fun p _ => List.filterMap_congr fun e he => ?_)) ?_
  · rw [List.mem_filter, hes, List.mem_filter] at he
    obtain ⟨⟨hmem, happ⟩, hp⟩ := he
    simp only [beq_iff_eq] at happ hp
    have hget := sdkGetFile_of_mem hmem
    rw [happ, hp] at hget
    simp only [Function.comp, H]
    by_cases hpre : HasPrefix e.1.key FileKeyPrefix = true
    · simp only [hpre, if_true, hget]
      cases hd : decodeFile e.2 with
      | none => rfl
      | some r =>
        simp only [Option.filter, visibleTo]
    · simp only [hpre, if_false]
      rfl
  rw [← List.filterMap_flatMap]
  have hgroup := flatMap_filter_perm (fun e : Sigma fun _ : Loc => Value => e.1.persona) es
    (es.map fun e => e.1.persona).dedup (List.nodup_dedup _)
    (fun e he => List.mem_dedup.2 (List.mem_map_of_mem _ he))
  refine (hgroup.filterMap H).trans ?_
  rw [List.filter_filterMap, hes, List.filterMap_filter]
  refine List.Perm.of_eq (List.filterMap_congr fun e _ => ?_)
  by_cases happ : e.1.app = AppID <;> by_cases hpre : HasPrefix e.1.key FileKeyPrefix = true <;>
    simp [H, happ, hpre, Option.guard]


theorem filtered_body (lib : GoLib) (s : Store) (opts : ListFilesOptions) (r : FileRecord) :
    (if (opts.Search != "" &&
          !(Contains (lib.ToLower r.OriginalName) (lib.ToLower opts.Search))) = true then none
      else
        if (r.OwnerID != "") = true then
          match GetClient s r.OwnerID with
          | .ok client => some { r with OwnerName := client.Name }
          | .error _ => some { r with OwnerName := "Unknown" }
        else some { r with OwnerName := "Admin" })
      = if matchesSearch lib opts.Search r = true then some (withOwnerName s r) else none := by
  have hname : (if (r.OwnerID != "") = true then
          match GetClient s r.OwnerID with
          | .ok client => some ({ r with OwnerName := client.Name } : FileRecord)
          | .error _ => some { r with OwnerName := "Unknown" }
        else some { r with OwnerName := "Admin" }) = some (withOwnerName s r) := by
    unfold withOwnerName resolvedOwnerName
    by_cases h : r.OwnerID = ""
    · simp [h]
    · simp only [bne_iff_ne, ne_eq, h, not_false_eq_true, if_true, if_false]
      cases GetClient s r.OwnerID <;> rfl
  rw [hname]
  unfold matchesSearch
  by_cases h1 : opts.Search = "" <;>
    cases h2 : Contains (lib.ToLower r.OriginalName) (lib.ToLower opts.Search) <;>
    simp [h1, h2]

theorem filterMap_ite_some {α β : Type} (P : α → Bool) (f : α → β) (l : List α) :
    l.filterMap (fun a => if P a = true then some (f a) else none) = (l.filter P).map f := by
  induction l with
  | nil => rfl
  | cons a t ih =>
    rw [List.filterMap_cons, List.filter_cons, ih]
    by_cases h : P a = true <;> simp [h]

theorem filtered_eq (lib : GoLib) (s : Store) (opts : ListFilesOptions) (l : List FileRecord) :
    ListFiles.filtered lib s opts l
      = (l.filter (matchesSearch lib opts.Search)).map (withOwnerName s) := by
  rw [← filterMap_ite_some]
  unfold ListFiles.filtered
  exact List.filterMap_congr fun r _ => filtered_body lib s opts r

theorem sortedFiles_perm (lib : GoLib) (s : Store) (opts : ListFilesOptions) :
    (sortedFiles lib s opts).Perm (survivingFiles lib s opts) := by
  unfold sortedFiles survivingFiles
  refine (lib.sortSlice_perm _ _).trans ?_
  rw [filtered_eq]
  refine List.Perm.map _ ?_
  refine ((allRecords_perm s opts).filter _).trans ?_
  rw [List.filter_filter]
  refine List.Perm.of_eq (List.filter_congr fun r _ => ?_)
  exact Bool.and_comm _ _

theorem uploadTime_strictWeak :
    StrictWeak (fun a b : FileRecord => decide (a.UploadTime > b.UploadTime)) := by
  constructor
  · intro a b h
    simp only [decide_eq_true_eq, decide_eq_false_iff_not] at h ⊢
    omega
  · intro a b c h
    simp only [decide_eq_true_eq] at h ⊢
    omega

theorem sortedFiles_sorted (lib : GoLib) (s : Store) (opts : ListFilesOptions) :
    (sortedFiles lib s opts).Pairwise (fun x y => x.UploadTime ≥ y.UploadTime) := by
  have h := lib.sortSlice_sorted (fun a b : FileRecord => decide (a.UploadTime > b.UploadTime))
    (ListFiles.filtered lib s opts (ListFiles.allRecords s opts)) uploadTime_strictWeak
  refine h.imp ?_
  intro x y hxy
  simp only [decide_eq_false_iff_not] at hxy
  omega

theorem mem_storedFiles {s : Store} {r : FileRecord} :
    r ∈ storedFiles s ↔
      ∃ p k, HasPrefix k FileKeyPrefix = true ∧ sdkGetFile s p AppID k = .ok r := by
  unfold storedFiles
  rw [List.mem_filterMap]
  constructor
  · rintro ⟨e, hmem, he⟩
    split at he
    · rename_i hc
      refine ⟨e.1.persona, e.1.key, hc.2, ?_⟩
      have := sdkGetFile_of_mem hmem
      rw [hc.1, he] at this
      exact this
    · cases he
  · rintro ⟨p, k, hpre, hget⟩
    rw [sdkGetFile_eq] at hget
    cases hv : s.val ⟨p, AppID, k⟩ with
    | none => simp [hv] at hget
    | some v =>
      rw [hv] at hget
      refine ⟨⟨⟨p, AppID, k⟩, v⟩, AList.mem_lookup_iff.1 hv, ?_⟩
      simp only [hpre, and_self, if_true]
      cases v with
      | file r1 =>
        simp only [Except.ok.injEq] at hget
        rw [hget]; rfl
      | client c => simp at hget
      | other raw => simp at hget

/-- The unfolding of `ListFiles`: the pagination of `sortedFiles`. -/
theorem ListFiles_eq (lib : GoLib) (s : Store) (opts : ListFilesOptions) :
    ListFiles lib s opts =
      let total : Int := (sortedFiles lib s opts).length
      let start := if opts.Offset > total then total else opts.Offset
      let end1 := wrapInt64 (start + opts.Limit)
      let end1 := if opts.Limit ≤ 0 || end1 > total then total else end1
      match goSlice (sortedFiles lib s opts) start end1 with
      | .error err => .error err
      | .ok files => .ok { Files := files, Total := total } := rfl

theorem wrapInt64_of_inRange {x : Int} (h1 : -2 ^ 63 ≤ x) (h2 : x < 2 ^ 63) : wrapInt64 x = x := by
  unfold wrapInt64
  omega

/-- The page that `ListFiles` returns when the end index does not overflow. -/
theorem ListFiles_in_range (lib : GoLib) (s : Store) (opts : ListFilesOptions)
    (ho : 0 ≤ opts.Offset)
    (hl : opts.Limit ≤ 0 ∨ opts.Limit + (sortedFiles lib s opts).length < 2 ^ 63) :
    ListFiles lib s opts = .ok
      { Files := ((sortedFiles lib s opts).take
            (if opts.Limit ≤ 0 then (sortedFiles lib s opts).length
              else min (min opts.Offset.toNat (sortedFiles lib s opts).length + opts.Limit.toNat)
                (sortedFiles lib s opts).length)).drop
            (min opts.Offset.toNat (sortedFiles lib s opts).length),
        Total := (sortedFiles lib s opts).length } := by
  rw [ListFiles_eq]
  generalize sortedFiles lib s opts = xs at hl ⊢
  obtain ⟨search, ownerID, limit, offset⟩ := opts
  simp only at ho hl ⊢
  have hstart : (if offset > (xs.length : Int) then (xs.length : Int) else offset)
      = ((min offset.toNat xs.length : Nat) : Int) := by
    split <;> omega
  rw [hstart]
  by_cases hlim : limit ≤ 0
  · simp only [hlim, decide_True, Bool.true_or, if_true]
    unfold goSlice
    have hb : (0 : Int) ≤ ((min offset.toNat xs.length : Nat) : Int) ∧
        ((min offset.toNat xs.length : Nat) : Int) ≤ (xs.length : Int) ∧
        (xs.length : Int) ≤ (xs.length : Int) := by omega
    rw [if_pos hb]
    simp only [Int.toNat_ofNat, List.take_length]
  · have hl1 : limit + (xs.length : Int) < 2 ^ 63 := by
      rcases hl with h | h
      · exact absurd h hlim
      · exact h
    have hw : wrapInt64 (((min offset.toNat xs.length : Nat) : Int) + limit)
        = ((min offset.toNat xs.length : Nat) : Int) + limit :=
      wrapInt64_of_inRange (by omega) (by omega)
    rw [hw]
    have hend : (if (decide (limit ≤ 0) || decide (((min offset.toNat xs.length : Nat) : Int)
          + limit > (xs.length : Int))) = true then (xs.length : Int)
        else ((min offset.toNat xs.length : Nat) : Int) + limit)
        = ((min (min offset.toNat xs.length + limit.toNat) xs.length : Nat) : Int) := by
      simp only [hlim, decide_False, Bool.false_or, decide_eq_true_eq]
      split <;> omega
    rw [hend]
    unfold goSlice
    have hb : (0 : Int) ≤ ((min offset.toNat xs.length : Nat) : Int) ∧
        ((min offset.toNat xs.length : Nat) : Int)
          ≤ ((min (min offset.toNat xs.length + limit.toNat) xs.length : Nat) : Int) ∧
        ((min (min offset.toNat xs.length + limit.toNat) xs.length : Nat) : Int)
          ≤ (xs.length : Int) := by omega
    rw [if_pos hb]
    simp only [Int.toNat_ofNat, hlim, if_false]

theorem ListFiles_unpaged (lib : GoLib) (s : Store) (search ownerID : String) :
    ListFiles lib s { Search := search, OwnerID := ownerID, Limit := 0, Offset := 0 }
      = .ok { Files := sortedFiles lib s
                { Search := search, OwnerID := ownerID, Limit := 0, Offset := 0 },
              Total := (sortedFiles lib s
                { Search := search, OwnerID := ownerID, Limit := 0, Offset := 0 }).length } := by
  rw [ListFiles_in_range lib s _ (le_refl _) (Or.inl (le_refl _))]
  simp

theorem containsAt_iff (l sub : List Char) : containsAt l sub = true ↔ sub <:+: l := by
  induction l with
  | nil =>
    rw [containsAt, List.isPrefixOf_iff_prefix, List.prefix_nil, List.infix_nil]
  | cons c cs ih =>
    rw [containsAt, Bool.or_eq_true, List.isPrefixOf_iff_prefix, ih, List.infix_cons_iff]

theorem Contains_iff (s substr : String) :
    Contains s substr = true ↔ substr.data <:+: s.data :=
  containsAt_iff s.data substr.data

theorem mem_survivingFiles {lib : GoLib} {s : Store} {opts : ListFilesOptions}
    {x : FileRecord} :
    x ∈ survivingFiles lib s opts ↔
      ∃ r ∈ storedFiles s, visibleTo opts.OwnerID r = true ∧
        matchesSearch lib opts.Search r = true ∧ x = withOwnerName s r := by
  unfold survivingFiles
  rw [List.mem_map]
  constructor
  · rintro ⟨r, hr, rfl⟩
    rw [List.mem_filter, Bool.and_eq_true] at hr
    exact ⟨r, hr.1, hr.2.1, hr.2.2, rfl⟩
  · rintro ⟨r, hr, hv, hm, rfl⟩
    exact ⟨r, List.mem_filter.2 ⟨hr, by rw [hv, hm]; rfl⟩, rfl⟩

theorem visibleTo_iff (A : String) (r : FileRecord) :
    visibleTo A r = true ↔ A = "" ∨ r.OwnerID = A ∨ r.IsPublic = true := by
  simp [visibleTo, or_assoc]

/-! ## C5: visibility -/

/-- C5: for every store and every owner id A, ListFiles with empty search and no
pagination (Limit 0, Offset 0) succeeds; its result contains, with the owner
name resolved, every decodable file record that A owns or that is public, and
every decodable file record when A is empty; and every record of the result is
owned by A or public unless A is empty. -/
theorem listing_visibility (lib : GoLib) (s : Store) (A : String) :
    ∃ resp, ListFiles lib s { Search := "", OwnerID := A, Limit := 0, Offset := 0 } = .ok resp ∧
      (∀ p k r, HasPrefix k FileKeyPrefix = true → sdkGetFile s p AppID k = .ok r →
        (A = "" ∨ r.OwnerID = A ∨ r.IsPublic = true) → withOwnerName s r ∈ resp.Files) ∧
      (∀ x ∈ resp.Files, A = "" ∨ x.OwnerID = A ∨ x.IsPublic = true) := by
  refine ⟨_, ListFiles_unpaged lib s "" A, ?_, ?_⟩
  · intro p k r hpre hget hvis
    rw [(sortedFiles_perm lib s _).mem_iff, mem_survivingFiles]
    exact ⟨r, mem_storedFiles.2 ⟨p, k, hpre, hget⟩, (visibleTo_iff A r).2 hvis, rfl, rfl⟩
  · intro x hx
    rw [(sortedFiles_perm lib s _).mem_iff, mem_survivingFiles] at hx
    obtain ⟨r, -, hv, -, rfl⟩ := hx
    exact (visibleTo_iff A r).1 hv

/-- C5, the scenario of the spec: file "f1" of "u1" is private and file "f2" of
"u2" is public; "u1" lists both, "u3" only "f2", the administrator both. -/
theorem listing_visibility_scenario :
    (ListFiles stableLib sampleStore { Search := "", OwnerID := "u1", Limit := 0, Offset := 0 }
        = .ok { Files := [withOwnerName sampleStore sampleB, withOwnerName sampleStore sampleA],
                Total := 2 }) ∧
      (ListFiles stableLib sampleStore { Search := "", OwnerID := "u3", Limit := 0, Offset := 0 }
        = .ok { Files := [withOwnerName sampleStore sampleB], Total := 1 }) ∧
      (ListFiles stableLib sampleStore { Search := "", OwnerID := "", Limit := 0, Offset := 0 }
        = .ok { Files := [withOwnerName sampleStore sampleB, withOwnerName sampleStore sampleA],
                Total := 2 }) := by
  decide

/-! ## C7: the text filter -/

/-- C7: for every ListFiles call without pagination, a visible decodable record
is in the result (with its owner name resolved) if and only if the search is
empty or the lower-cased search occurs in the lower-cased original_name as a
contiguous substring. -/
theorem listing_text_filter (lib : GoLib) (s : Store) (search ownerID : String) :
    ∃ resp,
      ListFiles lib s { Search := search, OwnerID := ownerID, Limit := 0, Offset := 0 }
        = .ok resp ∧
      ∀ p k r, HasPrefix k FileKeyPrefix = true → sdkGetFile s p AppID k = .ok r →
        visibleTo ownerID r = true →
        (withOwnerName s r ∈ resp.Files ↔
          (search = "" ∨ (lib.ToLower search).data <:+: (lib.ToLower r.OriginalName).data)) := by
  refine ⟨_, ListFiles_unpaged lib s search ownerID, ?_⟩
  intro p k r hpre hget hvis
  have hmatch : ∀ r1 : FileRecord, matchesSearch lib search r1 = true ↔
      (search = "" ∨ (lib.ToLower search).data <:+: (lib.ToLower r1.OriginalName).data) := by
    intro r1
    unfold matchesSearch
    rw [Bool.or_eq_true, beq_iff_eq, Contains_iff]
  rw [(sortedFiles_perm lib s _).mem_iff, mem_survivingFiles]
  constructor
  · rintro ⟨r1, -, -, hm, heq⟩
    have hname : r1.OriginalName = r.OriginalName := by
      have := congrArg FileRecord.OriginalName heq
      exact this.symm
    rw [← hname]
    exact (hmatch r1).1 hm
  · intro h
    exact ⟨r, mem_storedFiles.2 ⟨p, k, hpre, hget⟩, hvis, (hmatch r).2 h, rfl⟩

/-- C7, concrete check: the search "REP" finds "Report.txt" and not "notes.md". -/
theorem listing_text_filter_scenario :
    ListFiles stableLib sampleStore { Search := "REP", OwnerID := "", Limit := 0, Offset := 0 }
      = .ok { Files := [withOwnerName sampleStore sampleA], Total := 1 } := by
  decide

/-! ## C6: pagination -/

/-- Pagination without overflow, the part of the pagination property that the
code meets: for limit ≥ 1, offset ≥ 0 and limit + total < 2^63, ListFiles returns as total the number of decodable
records that pass the visibility and the text filter, as files the positions
[min(offset,total), min(min(offset,total)+limit, total)) of the sorted list, and
so min(limit, total - min(offset,total)) files; the total does not mention
limit or offset. -/
theorem listing_pagination_in_range (lib : GoLib) (s : Store) (search ownerID : String)
    (limit offset : Int) (hlim : 1 ≤ limit) (hoff : 0 ≤ offset)
    (hno : limit + ((storedFiles s).filter
      (fun r => visibleTo ownerID r && matchesSearch lib search r)).length < 2 ^ 63) :
    ∃ resp total,
      ListFiles lib s { Search := search, OwnerID := ownerID, Limit := limit, Offset := offset }
        = .ok resp ∧
      total = ((storedFiles s).filter
        (fun r => visibleTo ownerID r && matchesSearch lib search r)).length ∧
      resp.Total = total ∧
      resp.Files = ((sortedFiles lib s
          { Search := search, OwnerID := ownerID, Limit := limit, Offset := offset }).take
            (min (min offset.toNat total + limit.toNat) total)).drop (min offset.toNat total) ∧
      (resp.Files.length : Int) = min limit (total - min offset total) := by
  have hlen : (sortedFiles lib s
      { Search := search, OwnerID := ownerID, Limit := limit, Offset := offset }).length
      = ((storedFiles s).filter
        (fun r => visibleTo ownerID r && matchesSearch lib search r)).length := by
    rw [(sortedFiles_perm lib s _).length_eq]
    unfold survivingFiles
    rw [List.length_map]
  have hpage := ListFiles_in_range lib s
    { Search := search, OwnerID := ownerID, Limit := limit, Offset := offset } hoff
    (Or.inr (by rw [hlen]; exact hno))
  have hnot : ¬ limit ≤ 0 := by omega
  simp only [hnot, if_false] at hpage
  refine ⟨_, _, hpage, rfl, ?_, ?_, ?_⟩
  · simp only [hlen]
  · simp only [hlen]
  · simp only [List.length_drop, List.length_take, hlen]
    omega

/-- C6, the failing input: on a store with two visible files, a call of
`db.ListFiles` with Limit = 2^63 - 1 and Offset = 1 makes the end index
`start + Limit` wrap to -2^63; neither clamp applies and the slice expression
panics instead of returning the one remaining file.  The handler reaches the
same panic: the admin request `page=2&limit=9223372036854775807` gives
Limit = Offset = 2^63 - 1, the start index is clamped to the total 2 and the end
index `2 + Limit` wraps. -/
theorem listing_pagination_overflow :
    ListFiles stableLib sampleStore
        { Search := "", OwnerID := "", Limit := 9223372036854775807, Offset := 1 }
        = .error .slicePanic ∧
      Handler.ListFiles.options true "" "" 2 9223372036854775807
        = some { Search := "", OwnerID := "", Limit := 9223372036854775807,
                 Offset := 9223372036854775807 } ∧
      ListFiles stableLib sampleStore
        { Search := "", OwnerID := "", Limit := 9223372036854775807,
          Offset := 9223372036854775807 }
        = .error .slicePanic := by
  decide

/-! ## C8: the order of the listing -/

theorem goSlice_ok {α : Type} {xs ys : List α} {lo hi : Int} (h : goSlice xs lo hi = .ok ys) :
    ys = (xs.take hi.toNat).drop lo.toNat := by
  unfold goSlice at h
  split at h
  · exact (Except.ok.inj h).symm
  · cases h

theorem ListFiles_ok {lib : GoLib} {s : Store} {opts : ListFilesOptions}
    {resp : FileListResponse} (h : ListFiles lib s opts = .ok resp) :
    ∃ lo hi : Nat, resp.Files = ((sortedFiles lib s opts).take hi).drop lo ∧
      resp.Total = (sortedFiles lib s opts).length := by
  rw [ListFiles_eq] at h
  simp only at h
  split at h
  · cases h
  · rename_i files hfiles
    have := goSlice_ok hfiles
    simp only [Except.ok.injEq] at h
    subst h
    exact ⟨_, _, this, rfl⟩

/-! ## The order of equal elements after `sort.Slice` on a short slice -/

theorem GoSort.Swap_adjacent (Q : Nat → Bool) :
    ∀ (j : Nat) (d : List Nat), j + 1 < d.length →
      ¬ (Q (d.getD (j + 1) 0) = true ∧ Q (d.getD j 0) = true) →
      (GoSort.Swap d (j + 1) j).filter Q = d.filter Q ∧
        (GoSort.Swap d (j + 1) j).length = d.length := by
  intro j
  induction j with
  | zero =>
    intro d hlen hQ
    match d, hlen with
    | a :: b :: t, _ =>
      simp only [List.getD_cons_succ, List.getD_cons_zero] at hQ
      refine ⟨?_, by simp [GoSort.Swap]⟩
      simp only [GoSort.Swap, List.getD_cons_succ, List.getD_cons_zero, List.set_cons_succ,
        List.set_cons_zero, List.filter_cons]
      cases ha : Q a <;> cases hb : Q b <;> simp_all
  | succ j ih =>
    intro d hlen hQ
    match d, hlen with
    | x :: t, hlen =>
      simp only [List.getD_cons_succ] at hQ
      have hlen1 : j + 1 < t.length := by simpa using hlen
      obtain ⟨h1, h2⟩ := ih t hlen1 hQ
      have hs : GoSort.Swap (x :: t) (j + 1 + 1) (j + 1) = x :: GoSort.Swap t (j + 1) j := by
        simp [GoSort.Swap]
      rw [hs]
      exact ⟨by simp only [List.filter_cons, h1], by simp [h2]⟩

theorem GoSort.insertionSort_inner_filter {lt : Nat → Nat → Bool} {Q : Nat → Bool}
    (hQ : ∀ p q, lt p q = true → ¬ (Q p = true ∧ Q q = true)) (a : Nat) :
    ∀ (j : Nat) (d : List Nat), j < d.length →
      (GoSort.insertionSort_inner lt a j d).filter Q = d.filter Q ∧
        (GoSort.insertionSort_inner lt a j d).length = d.length := by
  intro j
  induction j with
  | zero => intro d _; exact ⟨rfl, rfl⟩
  | succ j ih =>
    intro d hlen
    unfold GoSort.insertionSort_inner
    split
    · rename_i hc
      rw [Bool.and_eq_true] at hc
      obtain ⟨h1, h2⟩ := GoSort.Swap_adjacent Q j d hlen (hQ _ _ hc.2)
      obtain ⟨h3, h4⟩ := ih (GoSort.Swap d (j + 1) j) (by omega)
      exact ⟨h3.trans h1, h4.trans h2⟩
    · exact ⟨rfl, rfl⟩

theorem GoSort.insertionSort_func_filter {lt : Nat → Nat → Bool} {Q : Nat → Bool}
    (hQ : ∀ p q, lt p q = true → ¬ (Q p = true ∧ Q q = true)) (d : List Nat) (a b : Nat)
    (hb : b ≤ d.length) :
    (GoSort.insertionSort_func lt d a b).filter Q = d.filter Q := by
  have hfold : ∀ (is : List Nat) (d : List Nat), (∀ i ∈ is, i < d.length) →
      (is.foldl (fun d i => GoSort.insertionSort_inner lt a i d) d).filter Q = d.filter Q := by
    intro is
    induction is with
    | nil => intro d _; rfl
    | cons i is ih =>
      intro d hd
      obtain ⟨h1, h2⟩ := GoSort.insertionSort_inner_filter hQ a i d (hd i (List.mem_cons_self _ _))
      rw [List.foldl_cons, ih _ (fun k hk => by rw [h2]; exact hd k (List.mem_cons_of_mem _ hk)),
        h1]
  refine hfold _ d fun i hi => ?_
  rw [List.mem_range'_1] at hi
  omega

theorem GoSort.arrangement_short {α : Type} (l : List α) (hl : l.length ≤ 12)
    (lt : Nat → Nat → Bool) :
    GoSort.pdqsort_func lt l.length (List.range l.length) 0 l.length
        (GoSort.bitsLen 64 l.length) true true
      = GoSort.insertionSort_func lt (List.range l.length) 0 l.length ∨ l = [] := by
  cases hn : l.length with
  | zero => exact Or.inr (List.length_eq_zero.1 hn)
  | succ n =>
    left
    rw [hn] at hl
    unfold GoSort.pdqsort_func
    simp only [Nat.sub_zero]
    rw [if_pos hl]

theorem GoSort.Slice_short_filter {α : Type} (less : α → α → Bool) (P : α → Bool)
    (hP : ∀ x y, less x y = true → ¬ (P x = true ∧ P y = true)) (l : List α)
    (hl : l.length ≤ 12) : (GoSort.Slice less l).filter P = l.filter P := by
  have hrange : ∀ l : List α, ((List.range l.length).filterMap fun p => l[p]?) = l := by
    intro l
    induction l using List.reverseRecOn with
    | nil => rfl
    | append_singleton t x ih =>
      have h1 : ((List.range t.length).filterMap fun p => (t ++ [x])[p]?) = t :=
        (List.filterMap_congr fun p hp =>
          List.getElem?_append_left (List.mem_range.1 hp)).trans ih
      rw [List.length_append, List.length_singleton, List.range_succ, List.filterMap_append,
        h1]
      simp
  have hkey : ∀ d1 d2 : List Nat,
      d1.filter (fun p => ((l[p]?).filter P).isSome) =
        d2.filter (fun p => ((l[p]?).filter P).isSome) →
      (d1.filterMap fun p => l[p]?).filter P = (d2.filterMap fun p => l[p]?).filter P := by
    have hone : ∀ d : List Nat, (d.filterMap fun p => l[p]?).filter P =
        (d.filter (fun p => ((l[p]?).filter P).isSome)).filterMap
          (fun p => (l[p]?).filter P) := by
      intro d
      rw [List.filter_filterMap, List.filterMap_filter]
      refine List.filterMap_congr fun p _ => ?_
      cases h : (l[p]?).filter P <;> simp [h]
    intro d1 d2 h
    rw [hone d1, hone d2, h]
  rcases List.eq_nil_or_concat l with rfl | _
  · rfl
  conv_rhs => rw [← hrange l]
  unfold GoSort.Slice
  refine hkey _ _ ?_
  unfold GoSort.Slice.arrangement
  rcases GoSort.arrangement_short l hl (GoSort.Slice.lessAt less l) with h | h
  · simp only [h]
    refine GoSort.insertionSort_func_filter ?_ _ 0 _ (by simp)
    intro p q hpq hboth
    unfold GoSort.Slice.lessAt at hpq
    cases hp : l[p]? with
    | none => rw [hp] at hpq; cases hpq
    | some x =>
      cases hq : l[q]? with
      | none => rw [hp, hq] at hpq; cases hpq
      | some y =>
        rw [hp, hq] at hpq
        simp only [hp, hq, Option.filter, Option.isSome] at hboth
        apply hP x y hpq
        constructor
        · cases hx : P x
          · simp [hx] at hboth
          · rfl
        · cases hy : P y
          · simp [hy] at hboth
          · rfl
  · subst h
    rfl

theorem orderedInsert_filter {α : Type} (less : α → α → Bool) (P : α → Bool)
    (hP : ∀ x y, less x y = true → ¬ (P x = true ∧ P y = true)) (a : α) :
    ∀ l : List α, (l.orderedInsert (fun a b => less b a = false) a).filter P
      = (a :: l).filter P := by
  intro l
  induction l with
  | nil => rfl
  | cons b t ih =>
    rw [List.orderedInsert]
    split
    · rfl
    · rename_i hr
      have hba : less b a = true := by simpa using hr
      have := hP b a hba
      rw [List.filter_cons, ih]
      cases ha : P a <;> cases hb : P b <;> simp_all [List.filter_cons]

theorem insertionSort_filter {α : Type} (less : α → α → Bool) (P : α → Bool)
    (hP : ∀ x y, less x y = true → ¬ (P x = true ∧ P y = true)) :
    ∀ l : List α, (l.insertionSort (fun a b => less b a = false)).filter P = l.filter P := by
  intro l
  induction l with
  | nil => rfl
  | cons a t ih =>
    rw [List.insertionSort, orderedInsert_filter less P hP, List.filter_cons, List.filter_cons, ih]

theorem GoSort.sortSlice_short_filter {α : Type} (less : α → α → Bool) (P : α → Bool)
    (hP : ∀ x y, less x y = true → ¬ (P x = true ∧ P y = true)) (l : List α)
    (hl : l.length ≤ 12) : (GoSort.sortSlice less l).filter P = l.filter P := by
  unfold GoSort.sortSlice
  split
  · exact GoSort.Slice_short_filter less P hP l hl
  · exact insertionSort_filter less P hP l

/-- C8 (as amended): for every ListFiles call that returns, the returned files
are in non-increasing upload_time order, they are a contiguous part of the
pre-pagination list, and the pre-pagination list is a permutation of the
filtered records; and when the sort is Go's `sort.Slice` and at most 12 records
survive the filters, the records of each upload_time stand in the
pre-pagination list in the order in which the loop over the dump met them. -/
theorem listing_order (lib : GoLib) (s : Store) (opts : ListFilesOptions)
    (resp : FileListResponse) (h : ListFiles lib s opts = .ok resp) :
    resp.Files.Pairwise (fun x y => x.UploadTime ≥ y.UploadTime) ∧
      resp.Files <:+: sortedFiles lib s opts ∧
      (sortedFiles lib s opts).Perm (survivingFiles lib s opts) ∧
      ((∀ (α : Type) (less : α → α → Bool) (l : List α),
          lib.sortSlice less l = GoSort.sortSlice less l) →
        (ListFiles.filtered lib s opts (ListFiles.allRecords s opts)).length ≤ 12 →
        ∀ t : Int,
          (sortedFiles lib s opts).filter (fun r => r.UploadTime == t) =
            (ListFiles.filtered lib s opts (ListFiles.allRecords s opts)).filter
              (fun r => r.UploadTime == t)) := by
  obtain ⟨lo, hi, hfiles, -⟩ := ListFiles_ok h
  rw [hfiles]
  refine ⟨?_, ?_, sortedFiles_perm lib s opts, fun hsort hlen t => ?_⟩
  · exact ((sortedFiles_sorted lib s opts).sublist (List.take_sublist _ _)).sublist
      (List.drop_sublist _ _)
  · exact (List.drop_suffix _ _).isInfix.trans (List.take_prefix _ _).isInfix
  · unfold sortedFiles
    rw [hsort]
    refine GoSort.sortSlice_short_filter _ _ (fun x y hxy hboth => ?_) _ hlen
    simp only [decide_eq_true_eq, beq_iff_eq] at hxy hboth
    omega

/-- C8, concrete check: two files of equal upload_time, which the dump meets as
`sampleSys`, `sampleB`, are listed in that order by Go's `sort.Slice`. -/
theorem listing_order_witness :
    ListFiles pdqsortLib tieStore { Search := "", OwnerID := "", Limit := 0, Offset := 0 }
        = .ok { Files := [withOwnerName tieStore sampleSys, withOwnerName tieStore sampleB],
                Total := 2 } ∧
      (ListFiles.filtered pdqsortLib tieStore
          { Search := "", OwnerID := "", Limit := 0, Offset := 0 }
          (ListFiles.allRecords tieStore
            { Search := "", OwnerID := "", Limit := 0, Offset := 0 })).length ≤ 12 ∧
      ([withOwnerName tieStore sampleSys, withOwnerName tieStore sampleB] :
          List FileRecord).Pairwise (fun x y => x.UploadTime ≥ y.UploadTime) ∧
      [withOwnerName tieStore sampleSys, withOwnerName tieStore sampleB] <:+:
        sortedFiles pdqsortLib tieStore
          { Search := "", OwnerID := "", Limit := 0, Offset := 0 } ∧
      (sortedFiles pdqsortLib tieStore
          { Search := "", OwnerID := "", Limit := 0, Offset := 0 }).Perm
        (survivingFiles pdqsortLib tieStore
          { Search := "", OwnerID := "", Limit := 0, Offset := 0 }) ∧
      (sortedFiles pdqsortLib tieStore
          { Search := "", OwnerID := "", Limit := 0, Offset := 0 }).filter
          (fun r => r.UploadTime == 200) =
        (ListFiles.filtered pdqsortLib tieStore
          { Search := "", OwnerID := "", Limit := 0, Offset := 0 }
          (ListFiles.allRecords tieStore
            { Search := "", OwnerID := "", Limit := 0, Offset := 0 })).filter
          (fun r => r.UploadTime == 200) :=
  have h := listing_order pdqsortLib tieStore
    { Search := "", OwnerID := "", Limit := 0, Offset := 0 }
    { Files := [withOwnerName tieStore sampleSys, withOwnerName tieStore sampleB], Total := 2 }
    (by decide)
  ⟨by decide, by decide, h.1, h.2.1, h.2.2.1, h.2.2.2 (fun _ _ _ => rfl) (by decide) 200⟩

set_option maxRecDepth 100000 in
/-- C8, counterexample to the tie order: thirteen files, of which the loop over
the dump meets "t00", ..., "t11" (all uploaded at 100) and then "t12" (uploaded
at 200).  Go's `sort.Slice` takes the pivot "t06", finds the slice not sorted
and partitions it by swapping, and the listing returns the twelve files of
upload_time 100 as "t06", "t02", ..., "t05", "t00", "t07", ..., "t11", "t01":
not in the order in which they were met. -/
theorem listing_order_ties_fail :
    (ListFiles.filtered pdqsortLib thirteenFilesStore
          { Search := "", OwnerID := "", Limit := 0, Offset := 0 }
          (ListFiles.allRecords thirteenFilesStore
            { Search := "", OwnerID := "", Limit := 0, Offset := 0 })).map
        (fun r => (r.ID, r.UploadTime))
        = [("t00", 100), ("t01", 100), ("t02", 100), ("t03", 100), ("t04", 100), ("t05", 100),
            ("t06", 100), ("t07", 100), ("t08", 100), ("t09", 100), ("t10", 100), ("t11", 100),
            ("t12", 200)] ∧
      (GoSort.Slice (fun a b : FileRecord => decide (a.UploadTime > b.UploadTime))
          (ListFiles.filtered pdqsortLib thirteenFilesStore
            { Search := "", OwnerID := "", Limit := 0, Offset := 0 }
            (ListFiles.allRecords thirteenFilesStore
              { Search := "", OwnerID := "", Limit := 0, Offset := 0 }))).map
        (fun r => r.ID)
        = ["t12", "t06", "t02", "t03", "t04", "t05", "t00", "t07", "t08", "t09", "t10", "t11",
            "t01"] ∧
      (ListFiles pdqsortLib thirteenFilesStore
            { Search := "", OwnerID := "", Limit := 0, Offset := 0 }).map
          (fun resp => resp.Files.map fun r => (r.ID, r.UploadTime))
        = .ok [("t12", 200), ("t06", 100), ("t02", 100), ("t03", 100), ("t04", 100), ("t05", 100),
            ("t00", 100), ("t07", 100), ("t08", 100), ("t09", 100), ("t10", 100), ("t11", 100),
            ("t01", 100)] := by
  decide

/-! ## C9: upsert then get -/

/-- C9: for every store and all arguments, UpsertClient succeeds and the
following GetClient(id) succeeds with name, recovery_code and last_active equal
to the arguments; is_admin is the previous is_admin when GetClient(id) found a
client before the call, and false when it did not. -/
theorem upsert_then_get (s : Store) (id name recoveryCode : String) (lastActive : Int) :
    ∃ s1 c, UpsertClient s id name recoveryCode lastActive = .ok s1 ∧
      GetClient s1 id = .ok c ∧
      c.Name = name ∧ c.RecoveryCode = recoveryCode ∧ c.LastActive = lastActive ∧
      c.IsAdmin = (match GetClient s id with
        | .ok old => old.IsAdmin
        | .error _ => false) := by
  have hset : ∀ c : ClientRecord,
      GetClient ⟨s.data.insert (clientLoc id) (.client c)⟩ id = .ok c := by
    intro c
    rw [GetClient_eq]
    simp [Store.val]
  cases hold : GetClient s id with
  | error e =>
    refine ⟨⟨s.data.insert (clientLoc id)
      (.client (ClientRecord.mk id name recoveryCode lastActive false))⟩,
      ClientRecord.mk id name recoveryCode lastActive false, ?_, hset _, rfl, rfl, rfl, rfl⟩
    unfold UpsertClient
    rw [hold]
    rfl
  | ok old =>
    refine ⟨⟨s.data.insert (clientLoc id)
      (.client (ClientRecord.mk old.ID name recoveryCode lastActive old.IsAdmin))⟩,
      ClientRecord.mk old.ID name recoveryCode lastActive old.IsAdmin,
      ?_, hset _, rfl, rfl, rfl, rfl⟩
    unfold UpsertClient
    rw [hold]
    rfl

/-- C9, concrete check: the upsert of a new client, then of the same id again
after the admin flag was set. -/
theorem upsert_then_get_scenario :
    GetClient annStore "id-ann"
        = .ok { ID := "id-ann", Name := "Ann", RecoveryCode := "ABC123",
                LastActive := 1700000000, IsAdmin := false } ∧
      (∃ s1 s2, UpdateClientAdminStatus annStore "id-ann" true = .ok s1 ∧
        UpsertClient s1 "id-ann" "Anna" "XYZ789" 1700000100 = .ok s2 ∧
        GetClient s2 "id-ann"
          = .ok { ID := "id-ann", Name := "Anna", RecoveryCode := "XYZ789",
                  LastActive := 1700000100, IsAdmin := true }) := by
  refine ⟨by decide, _, _, rfl, rfl, by decide⟩

/-! ## C10: lookup by recovery code -/

theorem mem_GetAppStore {s : Store} {persona app k : String} {v : Value} :
    (k, v) ∈ s.GetAppStore persona app ↔ s.val ⟨persona, app, k⟩ = some v := by
  unfold Store.GetAppStore
  rw [List.mem_map]
  constructor
  · rintro ⟨e, he, heq⟩
    rw [List.mem_filter, Bool.and_eq_true, beq_iff_eq, beq_iff_eq] at he
    obtain ⟨hmem, hp, ha⟩ := he
    have hv := val_of_mem_entries hmem
    obtain ⟨⟨ep, ea, ek⟩, ev⟩ := e
    simp only [Prod.mk.injEq] at heq hp ha hv
    obtain ⟨rfl, rfl⟩ := heq
    subst hp ha
    exact hv
  · intro hv
    refine ⟨⟨⟨persona, app, k⟩, v⟩, ?_, rfl⟩
    rw [List.mem_filter]
    exact ⟨AList.mem_lookup_iff.1 hv, by simp⟩

theorem recoveryCode_body {s : Store} {code : String} {kv : String × Value}
    {c : ClientRecord} (hmem : kv ∈ s.GetAppStore SystemPersona AppID) :
    (if HasPrefix kv.1 ClientKeyPrefix = true then
        match sdkGetClient s SystemPersona AppID kv.1 with
        | .ok c1 => if (c1.RecoveryCode == code) = true then some c1 else none
        | .error _ => none
      else none) = some c ↔
      HasPrefix kv.1 ClientKeyPrefix = true ∧ kv.2 = .client c ∧ c.RecoveryCode = code := by
  obtain ⟨k, v⟩ := kv
  have hv := mem_GetAppStore.1 hmem
  rw [sdkGetClient_eq, hv]
  by_cases hpre : HasPrefix k ClientKeyPrefix = true
  · simp only [hpre, if_true, true_and]
    cases v with
    | client c1 =>
      by_cases hc : c1.RecoveryCode = code
      · simp only [hc, beq_self_eq_true, if_true, Option.some.injEq, Value.client.injEq]
        constructor
        · rintro rfl; exact ⟨rfl, hc⟩
        · rintro ⟨h, -⟩; exact h
      · simp only [beq_iff_eq, hc, if_false, Value.client.injEq]
        constructor
        · intro h; cases h
        · rintro ⟨rfl, h⟩; exact absurd h hc
    | file r => simp
    | other raw => simp
  · simp [hpre]

theorem storedClient_iff {s : Store} {c : ClientRecord} :
    StoredClient s c ↔
      ∃ k, HasPrefix k ClientKeyPrefix = true ∧
        (k, Value.client c) ∈ s.GetAppStore SystemPersona AppID := by
  unfold StoredClient
  refine exists_congr fun k => and_congr_right fun _ => ?_
  rw [mem_GetAppStore, sdkGetClient_eq]
  cases hv : s.val ⟨SystemPersona, AppID, k⟩ with
  | none => simp
  | some v => cases v <;> simp

theorem GetClientByRecoveryCode_ok_iff {s : Store} {code : String} {c : ClientRecord}
    (h : GetClientByRecoveryCode s code = .ok c) : StoredClient s c ∧ c.RecoveryCode = code := by
  unfold GetClientByRecoveryCode at h
  simp only at h
  split at h
  · rename_i c1 hfound
    cases h
    obtain ⟨kv, hmem, hbody⟩ := List.exists_of_findSome?_eq_some hfound
    obtain ⟨hpre, hval, hcode⟩ := (recoveryCode_body hmem).1 hbody
    refine ⟨storedClient_iff.2 ⟨kv.1, hpre, ?_⟩, hcode⟩
    rw [← hval]
    exact hmem
  · cases h

theorem GetClientByRecoveryCode_error_iff {s : Store} {code : String} {e : Error}
    (h : GetClientByRecoveryCode s code = .error e) :
    e = .clientNotFound ∧ ¬ ∃ c, StoredClient s c ∧ c.RecoveryCode = code := by
  unfold GetClientByRecoveryCode at h
  simp only at h
  split at h
  · cases h
  · rename_i hfound
    refine ⟨(Except.error.inj h).symm, ?_⟩
    rintro ⟨c, hst, hcode⟩
    obtain ⟨k, hpre, hmem⟩ := storedClient_iff.1 hst
    have hnone := List.findSome?_eq_none_iff.1 hfound (k, .client c) hmem
    have hsome := (@recoveryCode_body s code (k, .client c) c hmem).2 ⟨hpre, rfl, hcode⟩
    rw [hsome] at hnone
    cases hnone

/-- C10: for every store and code, GetClientByRecoveryCode(code) either returns
a client that is stored under a client key of the system persona and whose
recovery_code equals code, or fails with the "client not found" error; it fails
if and only if no decodable stored client has that recovery_code; and when
exactly one stored client has the code, that client is the result. -/
theorem recovery_code_lookup (s : Store) (code : String) :
    (∀ c, GetClientByRecoveryCode s code = .ok c → StoredClient s c ∧ c.RecoveryCode = code) ∧
      (∀ e, GetClientByRecoveryCode s code = .error e → e = .clientNotFound) ∧
      ((∃ e, GetClientByRecoveryCode s code = .error e) ↔
        ¬ ∃ c, StoredClient s c ∧ c.RecoveryCode = code) ∧
      (∀ c, StoredClient s c → c.RecoveryCode = code →
        (∀ c1, StoredClient s c1 → c1.RecoveryCode = code → c1 = c) →
        GetClientByRecoveryCode s code = .ok c) := by
  refine ⟨fun c h => GetClientByRecoveryCode_ok_iff h,
    fun e h => (GetClientByRecoveryCode_error_iff h).1, ⟨?_, ?_⟩, ?_⟩
  · rintro ⟨e, h⟩
    exact (GetClientByRecoveryCode_error_iff h).2
  · intro hnone
    cases h : GetClientByRecoveryCode s code with
    | error e => exact ⟨e, rfl⟩
    | ok c => exact absurd ⟨c, GetClientByRecoveryCode_ok_iff h⟩ hnone
  · intro c hst hcode huniq
    cases h : GetClientByRecoveryCode s code with
    | error e => exact absurd ⟨c, hst, hcode⟩ (GetClientByRecoveryCode_error_iff h).2
    | ok c1 =>
      obtain ⟨hst1, hcode1⟩ := GetClientByRecoveryCode_ok_iff h
      rw [huniq c1 hst1 hcode1]

/-- C10, the scenario of the spec: with client "Ann" of code "ABC123" stored, the
lookup of "ABC123" returns the "Ann" record and the lookup of "WRONG" fails. -/
theorem recovery_code_lookup_scenario :
    GetClientByRecoveryCode annStore "ABC123"
        = .ok { ID := "id-ann", Name := "Ann", RecoveryCode := "ABC123",
                LastActive := 1700000000, IsAdmin := false } ∧
      GetClientByRecoveryCode annStore "WRONG" = .error .clientNotFound := by
  decide

/-! ## Client Directory: what each call reads and writes -/

theorem clientLoc_inj {id id1 : String} : clientLoc id = clientLoc id1 ↔ id = id1 := by
  constructor
  · intro h
    simp only [clientLoc, Loc.mk.injEq, true_and] at h
    exact append_right_cancel h
  · rintro rfl; rfl

theorem GetClient_ok_iff {s : Store} {id : String} {c : ClientRecord} :
    GetClient s id = .ok c ↔ s.val (clientLoc id) = some (.client c) := by
  rw [GetClient_eq]
  cases hv : s.val (clientLoc id) with
  | none => simp
  | some v => cases v <;> simp

theorem GetClient_of_absent {s : Store} {id : String} (h : s.val (clientLoc id) = none) :
    GetClient s id = .error .notFound := by
  rw [GetClient_eq, h]

theorem Set_client_eq (s : Store) (id : String) (v : Value) :
    s.Set SystemPersona AppID (ClientKeyPrefix ++ id) v
      = .ok ⟨s.data.insert (clientLoc id) v⟩ := rfl

theorem val_insert_client (s : Store) (id : String) (v : Value) (l : Loc) :
    (⟨s.data.insert (clientLoc id) v⟩ : Store).val l
      = if l = clientLoc id then some v else s.val l :=
  Store.val_Set (Set_client_eq s id v) l

theorem Delete_client_eq (s : Store) (id : String) :
    s.Delete SystemPersona AppID (ClientKeyPrefix ++ id)
      = .ok ⟨s.data.erase (clientLoc id)⟩ := rfl

theorem val_erase_client (s : Store) (id : String) (l : Loc) :
    (⟨s.data.erase (clientLoc id)⟩ : Store).val l
      = if l = clientLoc id then none else s.val l :=
  Store.val_Delete (Delete_client_eq s id) l

theorem GetClient_insert_client (s : Store) (id : String) (c : ClientRecord) (id1 : String) :
    GetClient ⟨s.data.insert (clientLoc id) (.client c)⟩ id1
      = if id1 = id then .ok c else GetClient s id1 := by
  by_cases hid : id1 = id
  · subst hid
    rw [if_pos rfl, GetClient_ok_iff, val_insert_client, if_pos rfl]
  · rw [if_neg hid, GetClient_eq, GetClient_eq, val_insert_client,
      if_neg (fun hl => hid (clientLoc_inj.1 hl))]

theorem UpsertClient_eq (s : Store) (id name recoveryCode : String) (lastActive : Int) :
    UpsertClient s id name recoveryCode lastActive
      = s.Set SystemPersona AppID (ClientKeyPrefix ++ id)
          (.client (upsertedClient s id name recoveryCode lastActive)) := rfl

theorem UpdateClientLastActive_eq (s : Store) (id : String) (lastActive : Int) :
    UpdateClientLastActive s id lastActive =
      match GetClient s id with
      | .error err => .error err
      | .ok client =>
        s.Set SystemPersona AppID (ClientKeyPrefix ++ id)
          (.client { client with LastActive := lastActive }) := rfl

theorem UpdateClientAdminStatus_eq (s : Store) (id : String) (isAdmin : Bool) :
    UpdateClientAdminStatus s id isAdmin =
      match GetClient s id with
      | .error err => .error err
      | .ok client =>
        s.Set SystemPersona AppID (ClientKeyPrefix ++ id)
          (.client { client with IsAdmin := isAdmin }) := rfl

theorem UpdateClientFull_eq (s : Store) (id name recoveryCode : String) (isAdmin : Bool) :
    UpdateClientFull s id name recoveryCode isAdmin =
      match GetClient s id with
      | .error err => .error err
      | .ok client =>
        s.Set SystemPersona AppID (ClientKeyPrefix ++ id)
          (.client { client with Name := name, RecoveryCode := recoveryCode,
                                 IsAdmin := isAdmin }) := rfl

/-- What a Client Directory call leaves in the store: the addresses other than
the client's own are untouched, and the client's own address holds the record
`c` described per call, or nothing after a delete, or what it held when the call
fails. -/
theorem applyClientOp_val (s : Store) (op : ClientOp) :
    ∀ l, l ≠ clientLoc op.target → (applyClientOp s op).val l = s.val l := by
  cases op with
  | upsert id name recoveryCode lastActive =>
    intro l hl
    simp only [applyClientOp, UpsertClient_eq, Set_client_eq]
    rw [val_insert_client]
    exact if_neg hl
  | updateLastActive id lastActive =>
    intro l hl
    simp only [applyClientOp, UpdateClientLastActive_eq]
    cases GetClient s id with
    | error e => rfl
    | ok c =>
      simp only [Set_client_eq]
      rw [val_insert_client]
      exact if_neg hl
  | updateAdminStatus id isAdmin =>
    intro l hl
    simp only [applyClientOp, UpdateClientAdminStatus_eq]
    cases GetClient s id with
    | error e => rfl
    | ok c =>
      simp only [Set_client_eq]
      rw [val_insert_client]
      exact if_neg hl
  | updateFull id name recoveryCode isAdmin =>
    intro l hl
    simp only [applyClientOp, UpdateClientFull_eq]
    cases GetClient s id with
    | error e => rfl
    | ok c =>
      simp only [Set_client_eq]
      rw [val_insert_client]
      exact if_neg hl
  | delete id =>
    intro l hl
    simp only [applyClientOp, DeleteClient, Delete_client_eq]
    rw [val_erase_client]
    exact if_neg hl


theorem GetClient_erase_client (s : Store) (id id1 : String) :
    GetClient ⟨s.data.erase (clientLoc id)⟩ id1
      = if id1 = id then .error .notFound else GetClient s id1 := by
  by_cases hid : id1 = id
  · subst hid
    rw [if_pos rfl, GetClient_eq, val_erase_client, if_pos rfl]
  · rw [if_neg hid, GetClient_eq, GetClient_eq, val_erase_client,
      if_neg (fun hl => hid (clientLoc_inj.1 hl))]

/-! ## Recovery codes -/

theorem UniqueCodes_empty : UniqueCodes Store.empty := by
  constructor
  · intro id1 id2 c1 c2 h1
    rw [GetClient_ok_iff, Store.val_empty] at h1
    cases h1
  · intro id c h
    rw [GetClient_ok_iff, Store.val_empty] at h
    cases h

theorem UniqueCodes_insert {s : Store} {id : String} {c : ClientRecord}
    (hinv : UniqueCodes s) (hid : c.ID = id)
    (hfresh : ∀ id1 c1, GetClient s id1 = .ok c1 → c1.RecoveryCode = c.RecoveryCode → id1 = id) :
    UniqueCodes ⟨s.data.insert (clientLoc id) (.client c)⟩ := by
  constructor
  · intro id1 id2 c1 c2 h1 h2 hcode
    rw [GetClient_insert_client] at h1 h2
    by_cases e1 : id1 = id <;> by_cases e2 : id2 = id
    · rw [e1, e2]
    · rw [if_pos e1] at h1
      rw [if_neg e2] at h2
      cases h1
      exact absurd (hfresh id2 c2 h2 hcode.symm) e2
    · rw [if_neg e1] at h1
      rw [if_pos e2] at h2
      cases h2
      exact absurd (hfresh id1 c1 h1 hcode) e1
    · rw [if_neg e1] at h1
      rw [if_neg e2] at h2
      exact hinv.1 id1 id2 c1 c2 h1 h2 hcode
  · intro id1 c1 h1
    rw [GetClient_insert_client] at h1
    by_cases e1 : id1 = id
    · rw [if_pos e1] at h1
      cases h1
      rw [e1, hid]
    · rw [if_neg e1] at h1
      exact hinv.2 id1 c1 h1

theorem UniqueCodes_erase {s : Store} (id : String) (hinv : UniqueCodes s) :
    UniqueCodes ⟨s.data.erase (clientLoc id)⟩ := by
  have hsub : ∀ id1 c1, GetClient ⟨s.data.erase (clientLoc id)⟩ id1 = .ok c1 →
      GetClient s id1 = .ok c1 := by
    intro id1 c1 h
    rw [GetClient_erase_client] at h
    split at h
    · cases h
    · exact h
  exact ⟨fun id1 id2 c1 c2 h1 h2 => hinv.1 id1 id2 c1 c2 (hsub _ _ h1) (hsub _ _ h2),
    fun id1 c1 h1 => hinv.2 id1 c1 (hsub _ _ h1)⟩

theorem UniqueCodes_applyClientOp {s : Store} {op : ClientOp} (hinv : UniqueCodes s)
    (hfresh : FreshCode s op) : UniqueCodes (applyClientOp s op) := by
  cases op with
  | upsert id name recoveryCode lastActive =>
    simp only [applyClientOp, UpsertClient_eq, Set_client_eq]
    refine UniqueCodes_insert hinv ?_ ?_
    · unfold upsertedClient
      cases h : GetClient s id with
      | error e => rfl
      | ok c => exact hinv.2 id c h
    · have hcode : (upsertedClient s id name recoveryCode lastActive).RecoveryCode
          = recoveryCode := by
        unfold upsertedClient
        cases GetClient s id <;> rfl
      rw [hcode]
      exact hfresh
  | updateLastActive id lastActive =>
    simp only [applyClientOp, UpdateClientLastActive_eq]
    cases h : GetClient s id with
    | error e => exact hinv
    | ok c =>
      simp only [Set_client_eq]
      exact UniqueCodes_insert hinv (hinv.2 id c h)
        (fun id1 c1 h1 hc => hinv.1 id1 id c1 c h1 h hc)
  | updateAdminStatus id isAdmin =>
    simp only [applyClientOp, UpdateClientAdminStatus_eq]
    cases h : GetClient s id with
    | error e => exact hinv
    | ok c =>
      simp only [Set_client_eq]
      exact UniqueCodes_insert hinv (hinv.2 id c h)
        (fun id1 c1 h1 hc => hinv.1 id1 id c1 c h1 h hc)
  | updateFull id name recoveryCode isAdmin =>
    simp only [applyClientOp, UpdateClientFull_eq]
    cases h : GetClient s id with
    | error e => exact hinv
    | ok c =>
      simp only [Set_client_eq]
      exact UniqueCodes_insert hinv (hinv.2 id c h) hfresh
  | delete id =>
    simp only [applyClientOp, DeleteClient, Delete_client_eq]
    exact UniqueCodes_erase id hinv

theorem UniqueCodes_runClientOps (ops : List ClientOp) :
    ∀ s : Store, UniqueCodes s → FreshCodes s ops → UniqueCodes (runClientOps s ops) := by
  induction ops with
  | nil => intro s hinv _; exact hinv
  | cons op ops ih =>
    intro s hinv hfresh
    exact ih (applyClientOp s op) (UniqueCodes_applyClientOp hinv hfresh.1) hfresh.2


/-! ## C11: uniqueness of recovery codes -/

/-- C11 (as amended): starting from the empty store, after every sequence of
Client Directory calls in which every UpsertClient and UpdateClientFull supplies
a recovery code that no stored client with another id carries at the time of
the call, no two stored clients with different ids share a recovery_code, and
every stored client carries the id of its key. -/
theorem recovery_code_unique (ops : List ClientOp) (hfresh : FreshCodes Store.empty ops) :
    UniqueCodes (runClientOps Store.empty ops) :=
  UniqueCodes_runClientOps ops Store.empty UniqueCodes_empty hfresh

/-- C11, concrete check: a client is created, becomes admin, and a second client
with another code is created. -/
theorem recovery_code_unique_witness :
    FreshCodes Store.empty
        [.upsert "id-1" "Ann" "CODE-1" 1700000000, .updateAdminStatus "id-1" true,
          .upsert "id-2" "Bob" "CODE-2" 1700000001] ∧
      UniqueCodes (runClientOps Store.empty
        [.upsert "id-1" "Ann" "CODE-1" 1700000000, .updateAdminStatus "id-1" true,
          .upsert "id-2" "Bob" "CODE-2" 1700000001]) := by
  have hfresh : FreshCodes Store.empty
      [.upsert "id-1" "Ann" "CODE-1" 1700000000, .updateAdminStatus "id-1" true,
        .upsert "id-2" "Bob" "CODE-2" 1700000001] := by
    refine ⟨?_, trivial, ?_, trivial⟩
    · intro id1 c1 h
      rw [GetClient_ok_iff, Store.val_empty] at h
      cases h
    · intro id1 c1 h hcode
      by_cases hid : id1 = "id-1"
      · subst hid
        have h0 : GetClient (applyClientOp (applyClientOp Store.empty
            (.upsert "id-1" "Ann" "CODE-1" 1700000000)) (.updateAdminStatus "id-1" true)) "id-1"
            = .ok { ID := "id-1", Name := "Ann", RecoveryCode := "CODE-1",
                    LastActive := 1700000000, IsAdmin := true } := by decide
        rw [h0] at h
        cases h
        exact absurd hcode (by decide)
      · have hl : clientLoc id1 ≠ clientLoc "id-1" := fun hl => hid (clientLoc_inj.1 hl)
        rw [GetClient_ok_iff, applyClientOp_val _ _ _ hl, applyClientOp_val _ _ _ hl,
          Store.val_empty] at h
        cases h
  exact ⟨hfresh, recovery_code_unique _ hfresh⟩

/-- C11, counterexample to the claim as stated: two upserts with different ids
and the same recovery code leave two stored clients that share the code. -/
theorem recovery_code_unique_fails :
    GetClient (runClientOps Store.empty
        [.upsert "id-1" "Ann" "ABC123" 1700000000, .upsert "id-2" "Bob" "ABC123" 1700000001])
        "id-1"
      = .ok { ID := "id-1", Name := "Ann", RecoveryCode := "ABC123",
              LastActive := 1700000000, IsAdmin := false } ∧
    GetClient (runClientOps Store.empty
        [.upsert "id-1" "Ann" "ABC123" 1700000000, .upsert "id-2" "Bob" "ABC123" 1700000001])
        "id-2"
      = .ok { ID := "id-2", Name := "Bob", RecoveryCode := "ABC123",
              LastActive := 1700000001, IsAdmin := false } := by
  decide

/-! ## C12: UpdateClientFull -/

/-- C12 (as amended): UpdateClientFull(id, name, recoveryCode, isAdmin) fails
with NotFound, without a write, when the key "client:"+id is absent; when
GetClient(id) finds a client it succeeds, the stored client then has name,
recovery_code and is_admin equal to the arguments and its id and last_active
unchanged, and no other address of the store changes. -/
theorem update_client_full (s : Store) (id name recoveryCode : String) (isAdmin : Bool) :
    (s.Get SystemPersona AppID (ClientKeyPrefix ++ id) = .error .notFound →
      UpdateClientFull s id name recoveryCode isAdmin = .error .notFound ∧
      applyClientOp s (.updateFull id name recoveryCode isAdmin) = s) ∧
    (∀ c, GetClient s id = .ok c →
      ∃ s1, UpdateClientFull s id name recoveryCode isAdmin = .ok s1 ∧
        GetClient s1 id = .ok { ID := c.ID, Name := name, RecoveryCode := recoveryCode,
                                LastActive := c.LastActive, IsAdmin := isAdmin } ∧
        ∀ l, l ≠ clientLoc id → s1.val l = s.val l) := by
  constructor
  · intro habs
    have hg : GetClient s id = .error .notFound :=
      GetClient_of_absent (Store.Get_eq_error.1 habs).2
    constructor
    · rw [UpdateClientFull_eq, hg]
    · simp only [applyClientOp, UpdateClientFull_eq, hg]
  · intro c hc
    refine ⟨⟨s.data.insert (clientLoc id)
      (.client (ClientRecord.mk c.ID name recoveryCode c.LastActive isAdmin))⟩, ?_, ?_, ?_⟩
    · rw [UpdateClientFull_eq, hc]
      rfl
    · rw [GetClient_insert_client, if_pos rfl]
    · intro l hl
      rw [val_insert_client]
      exact if_neg hl

/-- C12, counterexample to the claim as stated: the client "Ann" was last active
at 1700000000; after UpdateClientFull, which supplies no last_active, the stored
record still carries that previous value. -/
theorem update_client_full_keeps_last_active :
    GetClient annStore "id-ann"
        = .ok { ID := "id-ann", Name := "Ann", RecoveryCode := "ABC123",
                LastActive := 1700000000, IsAdmin := false } ∧
      GetClient (applyClientOp annStore (.updateFull "id-ann" "Bob" "XYZ789" true)) "id-ann"
        = .ok { ID := "id-ann", Name := "Bob", RecoveryCode := "XYZ789",
                LastActive := 1700000000, IsAdmin := true } := by
  decide

/-! ## C13: UpdateClientAdminStatus -/

/-- C13: UpdateClientAdminStatus(id, isAdmin) fails with NotFound and leaves the
store unchanged when the key "client:"+id is absent; when GetClient(id) finds a
client it succeeds, the stored client then has is_admin = isAdmin and its id,
name, recovery_code and last_active unchanged, and no other address of the
store changes. -/
theorem update_client_admin_status (s : Store) (id : String) (isAdmin : Bool) :
    (s.Get SystemPersona AppID (ClientKeyPrefix ++ id) = .error .notFound →
      UpdateClientAdminStatus s id isAdmin = .error .notFound ∧
      applyClientOp s (.updateAdminStatus id isAdmin) = s) ∧
    (∀ c, GetClient s id = .ok c →
      ∃ s1, UpdateClientAdminStatus s id isAdmin = .ok s1 ∧
        GetClient s1 id = .ok { ID := c.ID, Name := c.Name, RecoveryCode := c.RecoveryCode,
                                LastActive := c.LastActive, IsAdmin := isAdmin } ∧
        ∀ l, l ≠ clientLoc id → s1.val l = s.val l) := by
  constructor
  · intro habs
    have hg : GetClient s id = .error .notFound :=
      GetClient_of_absent (Store.Get_eq_error.1 habs).2
    constructor
    · rw [UpdateClientAdminStatus_eq, hg]
    · simp only [applyClientOp, UpdateClientAdminStatus_eq, hg]
  · intro c hc
    refine ⟨⟨s.data.insert (clientLoc id)
      (.client (ClientRecord.mk c.ID c.Name c.RecoveryCode c.LastActive isAdmin))⟩, ?_, ?_, ?_⟩
    · rw [UpdateClientAdminStatus_eq, hc]
      rfl
    · rw [GetClient_insert_client, if_pos rfl]
    · intro l hl
      rw [val_insert_client]
      exact if_neg hl

/-- C13, concrete check: the admin activation of TestPersonaFlow on the client
"Ann", and the same call for an id that is not stored. -/
theorem update_client_admin_status_scenario :
    GetClient (applyClientOp annStore (.updateAdminStatus "id-ann" true)) "id-ann"
        = .ok { ID := "id-ann", Name := "Ann", RecoveryCode := "ABC123",
                LastActive := 1700000000, IsAdmin := true } ∧
      UpdateClientAdminStatus annStore "id-bob" true = .error .notFound := by
  decide

/-! ## C14: what is stored as owner_name -/

theorem emptyOwnerName_saves (rs : List FileRecord) (hrs : ∀ r ∈ rs, r.OwnerName = "") :
    ∀ s : Store, (∀ l r, s.val l = some (.file r) → r.OwnerName = "") →
      ∀ l r, (runFileOps s (rs.map FileOp.save)).val l = some (.file r) → r.OwnerName = "" := by
  induction rs with
  | nil => intro s hs; exact hs
  | cons r0 rs ih =>
    intro s hs
    refine ih (fun r hr => hrs r (List.mem_cons_of_mem _ hr)) (applyFileOp s (.save r0)) ?_
    intro l r hv
    rw [applyFileOp_save_val] at hv
    split at hv
    · simp only [Option.some.injEq, Value.file.injEq] at hv
      rw [← hv]
      exact hrs r0 (List.mem_cons_self _ _)
    · exact hs l r hv

/-- C14 (as amended): after every sequence of SaveFileRecord calls on records
with empty owner_name, starting from the empty store, every stored file record
has an empty owner_name; and every successful UpdateFileRecord stores, under
"file:"+record.ID in the new persona, the record with its three fields replaced
and with the owner name that was resolved for the previous owner_id when the
update read the record. -/
theorem owner_name_persistence :
    (∀ rs : List FileRecord, (∀ r ∈ rs, r.OwnerName = "") →
      ∀ p a k r, (runFileOps Store.empty (rs.map FileOp.save)).Get p a k = .ok (.file r) →
        r.OwnerName = "") ∧
    (∀ (s s1 : Store) (id name ownerID : String) (isPublic : Bool),
      UpdateFileRecord s id name ownerID isPublic = .ok s1 →
      ∃ p r, s.GetGlobal AppID (FileKeyPrefix ++ id) = .ok (.file r, p) ∧
        s1.Get (resolvePersona ownerID) AppID (FileKeyPrefix ++ r.ID)
          = .ok (.file (updatedRecord s r name ownerID isPublic)) ∧
        (updatedRecord s r name ownerID isPublic).OwnerName
          = resolvedOwnerName s r.OwnerID) := by
  constructor
  · intro rs hrs p a k r hget
    refine emptyOwnerName_saves rs hrs Store.empty ?_ ⟨p, a, k⟩ r (Store.Get_eq_ok.1 hget)
    intro l r1 h
    rw [Store.val_empty] at h
    cases h
  · intro s s1 id name ownerID isPublic hupd
    obtain ⟨p, r, s2, hg, -, -, hset⟩ := UpdateFileRecord_steps hupd
    refine ⟨p, r, hg, ?_, rfl⟩
    rw [Store.Get_eq_ok, Store.val_Set hset, if_pos rfl]

/-- C14, counterexample to the claim as stated: `sampleA` is saved with an empty
owner_name and then renamed; the value stored afterwards carries the owner name
"Unknown" that the update resolved. -/
theorem owner_name_persisted_by_update :
    sampleA.OwnerName = "" ∧
      (runFileOps Store.empty [.save sampleA, .update "f1" "renamed.txt" "u1" false]).Get
          "u1" AppID (FileKeyPrefix ++ "f1")
        = .ok (.file { sampleA with OriginalName := "renamed.txt", OwnerName := "Unknown" }) := by
  decide


/-! ## C15: the owner name on read -/

theorem resolvedOwnerName_cases (s : Store) (ownerID : String) :
    (ownerID = "" → resolvedOwnerName s ownerID = "Admin") ∧
    (ownerID ≠ "" → ∀ c, GetClient s ownerID = .ok c → resolvedOwnerName s ownerID = c.Name) ∧
    (ownerID ≠ "" → ∀ e, GetClient s ownerID = .error e →
      resolvedOwnerName s ownerID = "Unknown") := by
  unfold resolvedOwnerName
  refine ⟨fun h => by rw [if_pos h], fun h c hc => ?_, fun h e he => ?_⟩
  · rw [if_neg h, hc]
  · rw [if_neg h, he]

theorem mem_Files_ownerName {lib : GoLib} {s : Store} {opts : ListFilesOptions}
    {resp : FileListResponse} (h : ListFiles lib s opts = .ok resp) {x : FileRecord}
    (hx : x ∈ resp.Files) : x.OwnerName = resolvedOwnerName s x.OwnerID := by
  obtain ⟨lo, hi, hfiles, -⟩ := ListFiles_ok h
  rw [hfiles] at hx
  have hx1 : x ∈ sortedFiles lib s opts := List.mem_of_mem_take (List.mem_of_mem_drop hx)
  rw [(sortedFiles_perm lib s opts).mem_iff, mem_survivingFiles] at hx1
  obtain ⟨r, -, -, -, rfl⟩ := hx1
  rfl

theorem FilesKeyedById_of_FileInv {s : Store} (hinv : FileInv s) : FilesKeyedById s := by
  intro id p r h
  obtain ⟨⟨r1, hr1, hid, -⟩, huniq⟩ := hinv id p (.file r) (Store.Get_eq_ok.1 h)
  cases hr1
  exact ⟨hid, fun q w hq => huniq q w (Store.Get_eq_ok.1 hq)⟩

theorem HasPrefix_file {k : String} (h : HasPrefix k FileKeyPrefix = true) :
    ∃ id, k = FileKeyPrefix ++ id := by
  unfold HasPrefix at h
  obtain ⟨t, ht⟩ := List.isPrefixOf_iff_prefix.1 h
  exact ⟨⟨t⟩, String.ext (by rw [String.data_append, ht])⟩

theorem GetFileRecord_of_listed {lib : GoLib} {s : Store} (hinv : FilesKeyedById s)
    {opts : ListFilesOptions} {resp : FileListResponse}
    (h : ListFiles lib s opts = .ok resp) {x : FileRecord} (hx : x ∈ resp.Files) :
    GetFileRecord s x.ID = .ok x := by
  obtain ⟨lo, hi, hfiles, -⟩ := ListFiles_ok h
  rw [hfiles] at hx
  have hx1 : x ∈ sortedFiles lib s opts := List.mem_of_mem_take (List.mem_of_mem_drop hx)
  rw [(sortedFiles_perm lib s opts).mem_iff, mem_survivingFiles] at hx1
  obtain ⟨r, hr, -, -, rfl⟩ := hx1
  obtain ⟨p, k, hpre, hget⟩ := mem_storedFiles.1 hr
  obtain ⟨id, rfl⟩ := HasPrefix_file hpre
  have hval : s.val ⟨p, AppID, FileKeyPrefix ++ id⟩ = some (.file r) := by
    rw [sdkGetFile_eq] at hget
    cases hv : s.val ⟨p, AppID, FileKeyPrefix ++ id⟩ with
    | none => rw [hv] at hget; cases hget
    | some v =>
      rw [hv] at hget
      cases v with
      | file r1 => cases hget; rfl
      | client c => cases hget
      | other raw => cases hget
  obtain ⟨hid, huniq⟩ := hinv id p r (Store.Get_eq_ok.2 hval)
  show GetFileRecord s r.ID = .ok (withOwnerName s r)
  rw [hid]
  cases hg : s.GetGlobal AppID (FileKeyPrefix ++ id) with
  | error e =>
    have := Store.GetGlobal_error hg p
    rw [hval] at this
    cases this
  | ok vq =>
    obtain ⟨v, q⟩ := vq
    have hq := Store.GetGlobal_ok hg
    have hqp := huniq q v (Store.Get_eq_ok.2 hq)
    subst hqp
    rw [hval] at hq
    cases hq
    exact GetFileRecord_of_GetGlobal hg

/-- C15 (as amended): every record that GetFileRecord returns has owner_name
"Admin" if its owner_id is empty, the name of the client owner_id if owner_id is
non-empty and GetClient(owner_id) succeeds, and "Unknown" if owner_id is
non-empty and GetClient fails; every record that ListFiles returns has its
owner_name by the same rule; and on every store in which a key "file:"+id that
holds a file record is held by no other persona and the record carries that id,
every record that ListFiles returns is the record that GetFileRecord returns
for its id, so it carries the same owner_name. -/
theorem owner_name_resolution (lib : GoLib) (s : Store) :
    (∀ id rec, GetFileRecord s id = .ok rec →
      (rec.OwnerID = "" → rec.OwnerName = "Admin") ∧
      (rec.OwnerID ≠ "" → ∀ c, GetClient s rec.OwnerID = .ok c → rec.OwnerName = c.Name) ∧
      (rec.OwnerID ≠ "" → ∀ e, GetClient s rec.OwnerID = .error e →
        rec.OwnerName = "Unknown")) ∧
    (∀ opts resp x, ListFiles lib s opts = .ok resp → x ∈ resp.Files →
      ((x.OwnerID = "" → x.OwnerName = "Admin") ∧
        (x.OwnerID ≠ "" → ∀ c, GetClient s x.OwnerID = .ok c → x.OwnerName = c.Name) ∧
        (x.OwnerID ≠ "" → ∀ e, GetClient s x.OwnerID = .error e → x.OwnerName = "Unknown")) ∧
      (FilesKeyedById s → GetFileRecord s x.ID = .ok x)) := by
  constructor
  · intro id rec h
    obtain ⟨p, r, -, -, rfl⟩ := GetFileRecord_ok h
    exact resolvedOwnerName_cases s r.OwnerID
  · intro opts resp x h hx
    refine ⟨?_, fun hinv => GetFileRecord_of_listed hinv h hx⟩
    rw [mem_Files_ownerName h hx]
    exact resolvedOwnerName_cases s x.OwnerID

theorem FileInv_annFilesStore : FileInv annFilesStore := by
  refine FileInv_runFileOps _ _ ?_ ⟨?_, ?_, trivial⟩
  · intro id p v h
    rw [applyClientOp_val _ _ _ (clientLoc_ne_fileLoc _ p id).symm, Store.val_empty] at h
    cases h
  · intro p v h
    rw [Store.Get_eq_ok] at h
    rw [show (⟨p, AppID, FileKeyPrefix ++ sampleA.ID⟩ : Loc) = fileLoc p sampleA.ID from rfl,
      applyClientOp_val _ _ _ (clientLoc_ne_fileLoc _ p _).symm, Store.val_empty] at h
    cases h
  · intro p v h
    rw [Store.Get_eq_ok] at h
    rw [show (⟨p, AppID, FileKeyPrefix ++ sampleB.ID⟩ : Loc) = fileLoc p sampleB.ID from rfl,
      applyFileOp_save_val] at h
    split at h
    · rename_i heq
      exact absurd (fileLoc_inj.1 heq).2 (by decide)
    · rw [applyClientOp_val _ _ _ (clientLoc_ne_fileLoc _ p _).symm, Store.val_empty] at h
      cases h

/-- C15, concrete check: with the client "u1" ("Ann") and the files "f1" of
"u1" and "f2" of "u2" stored, the listing returns "f2" with owner name
"Unknown" and "f1" with owner name "Ann", and GetFileRecord("f1") returns the
listed record of "f1". -/
theorem owner_name_resolution_witness :
    FilesKeyedById annFilesStore ∧
      ListFiles stableLib annFilesStore { Search := "", OwnerID := "", Limit := 0, Offset := 0 }
        = .ok { Files := [{ sampleB with OwnerName := "Unknown" },
                          { sampleA with OwnerName := "Ann" }],
                Total := 2 } ∧
      GetFileRecord annFilesStore "f1" = .ok { sampleA with OwnerName := "Ann" } :=
  ⟨FilesKeyedById_of_FileInv FileInv_annFilesStore, by decide,
    ((owner_name_resolution stableLib annFilesStore).2
      { Search := "", OwnerID := "", Limit := 0, Offset := 0 }
      { Files := [{ sampleB with OwnerName := "Unknown" }, { sampleA with OwnerName := "Ann" }],
        Total := 2 }
      { sampleA with OwnerName := "Ann" } (by decide) (by decide)).2
      (FilesKeyedById_of_FileInv FileInv_annFilesStore)⟩

/-- C15, counterexample to the claim as stated: the file id "f1" is stored for
"u1" (client "Ann") and for "u2" (no client), so the key "file:f1" is held by
two personas.  ListFiles returns both records, with owner names "Unknown" and
"Ann"; GetFileRecord("f1") returns one record, with owner name "Unknown", so the
listed record of "u1" does not carry the owner_name that GetFileRecord returns
for its id.  (Whichever of the two records GetFileRecord returned, the other
listed record would differ from it.) -/
theorem owner_name_listing_differs :
    ListFiles stableLib twoOwnersStore { Search := "", OwnerID := "", Limit := 0, Offset := 0 }
        = .ok { Files := [{ sampleA2 with OwnerName := "Unknown" },
                          { sampleA with OwnerName := "Ann" }],
                Total := 2 } ∧
      ({ sampleA with OwnerName := "Ann" } : FileRecord).ID = "f1" ∧
      GetFileRecord twoOwnersStore "f1" = .ok { sampleA2 with OwnerName := "Unknown" } ∧
      ¬ FilesKeyedById twoOwnersStore := by
  refine ⟨by decide, by decide, by decide, fun h => ?_⟩
  have h1 := (h "f1" "u1" sampleA (by decide)).2 "u2" (.file sampleA2) (by decide)
  exact absurd h1 (by decide)

/-! ## C16: deleting an absent id -/

theorem erase_absent {s : Store} {l : Loc} (h : s.val l = none) :
    (⟨s.data.erase l⟩ : Store) = s := by
  obtain ⟨d⟩ := s
  have hmem : l ∉ d.entries.keys := fun hk =>
    AList.lookup_eq_none.1 h (AList.mem_keys.2 hk)
  congr
  exact AList.ext (List.kerase_of_not_mem_keys hmem)

/-- C16: on every store that holds neither "client:"+id nor "file:"+id in any
persona, DeleteClient(id) returns no error and DeleteFileRecord(id) returns the
NotFound error, and both leave the store unchanged. -/
theorem delete_absent (s : Store) (id : String)
    (hclient : ∀ p, s.Get p AppID (ClientKeyPrefix ++ id) = .error .notFound)
    (hfile : ∀ p, s.Get p AppID (FileKeyPrefix ++ id) = .error .notFound) :
    DeleteClient s id = .ok s ∧
      DeleteFileRecord s id = .error .notFound ∧
      applyClientOp s (.delete id) = s ∧ applyFileOp s (.delete id) = s := by
  have hc : DeleteClient s id = .ok s := by
    have habs : s.val (clientLoc id) = none :=
      (Store.Get_eq_error.1 (hclient SystemPersona)).2
    rw [DeleteClient, Delete_client_eq, erase_absent habs]
  have hf : DeleteFileRecord s id = .error .notFound := by
    cases hd : DeleteFileRecord s id with
    | ok s1 =>
      obtain ⟨p, r, hg, -⟩ := DeleteFileRecord_ok hd
      have hv := Store.GetGlobal_ok hg
      rw [(Store.Get_eq_error.1 (hfile p)).2] at hv
      cases hv
    | error e =>
      unfold DeleteFileRecord at hd
      cases hgf : GetFileRecord s id with
      | ok rec =>
        obtain ⟨p, r, hg, -, -⟩ := GetFileRecord_ok hgf
        have hv := Store.GetGlobal_ok hg
        rw [(Store.Get_eq_error.1 (hfile p)).2] at hv
        cases hv
      | error e1 =>
        rw [hgf] at hd
        simp only [Except.error.injEq] at hd
        subst hd
        rcases GetFileRecord_error hgf with ⟨he, -⟩ | ⟨-, p, v, hv, -⟩
        · rw [he]
        · have hv1 : s.val ⟨p, AppID, FileKeyPrefix ++ id⟩ = some v := hv
          rw [(Store.Get_eq_error.1 (hfile p)).2] at hv1
          cases hv1
  refine ⟨hc, hf, ?_, ?_⟩
  · simp only [applyClientOp, hc]
  · simp only [applyFileOp, hf]

/-- C16, concrete check: the id "ghost" on the store that holds only the client
"Ann". -/
theorem delete_absent_witness :
    DeleteClient annStore "ghost" = .ok annStore ∧
      DeleteFileRecord annStore "ghost" = .error .notFound ∧
      applyClientOp annStore (.delete "ghost") = annStore ∧
      applyFileOp annStore (.delete "ghost") = annStore := by
  refine delete_absent annStore "ghost" ?_ ?_
  · intro p
    rw [Store.Get_eq_error]
    refine ⟨rfl, ?_⟩
    have h := applyClientOp_val Store.empty (.upsert "id-ann" "Ann" "ABC123" 1700000000)
      ⟨p, AppID, ClientKeyPrefix ++ "ghost"⟩ (by
        intro hl
        have := (Loc.mk.inj hl).2.2
        exact absurd (append_right_cancel this) (by decide))
    rw [Store.val_empty] at h
    exact h
  · intro p
    rw [Store.Get_eq_error]
    refine ⟨rfl, ?_⟩
    have h := applyClientOp_val Store.empty (.upsert "id-ann" "Ann" "ABC123" 1700000000)
      ⟨p, AppID, FileKeyPrefix ++ "ghost"⟩ (by
        intro hl
        exact clientLoc_ne_fileLoc _ p "ghost" hl.symm)
    rw [Store.val_empty] at h
    exact h

/-! ## C17: the list of clients -/

theorem stringLess_iff (a b : String) : stringLess a b = true ↔ a < b := by
  unfold stringLess
  rw [decide_eq_true_eq, String.lt_iff_toList_lt]
  rfl

theorem name_strictWeak :
    StrictWeak (fun a b : ClientRecord => stringLess a.Name b.Name) := by
  constructor
  · intro a b h
    rw [stringLess_iff] at h
    rw [Bool.eq_false_iff, ne_eq, stringLess_iff]
    exact lt_asymm h
  · intro a b c h
    rw [stringLess_iff] at h
    rw [stringLess_iff, stringLess_iff]
    rcases lt_or_le a.Name b.Name with h1 | h1
    · exact Or.inl h1
    · exact Or.inr (lt_of_le_of_lt h1 h)

theorem sdkGetClient_of_mem {s : Store} {e : Sigma fun _ : Loc => Value}
    (h : e ∈ s.data.entries) :
    sdkGetClient s e.1.persona e.1.app e.1.key =
      match decodeClient e.2 with
      | some c => .ok c
      | none => .error .decode := by
  rw [sdkGetClient_eq, val_of_mem_entries h]
  cases e.2 <;> rfl

/-- The loop of `ListClients` collects the stored clients in scan order. -/
theorem ListClients_eq (lib : GoLib) (s : Store) :
    ListClients lib s
      = .ok (lib.sortSlice (fun a b => stringLess a.Name b.Name) (storedClients s)) := by
  unfold ListClients storedClients Store.GetAppStore
  simp only [List.filterMap_map, List.filterMap_filter]
  refine congrArg (fun l => Except.ok (lib.sortSlice _ l)) ?_
  refine List.filterMap_congr fun e he => ?_
  have hget := sdkGetClient_of_mem he
  by_cases hp : e.1.persona = SystemPersona <;> by_cases ha : e.1.app = AppID <;>
    by_cases hpre : HasPrefix e.1.key ClientKeyPrefix = true
  · rw [hp, ha] at hget
    simp only [Function.comp, hp, ha, hpre, hget, beq_self_eq_true, Bool.and_self, and_self,
      if_true, Option.bind]
    cases decodeClient e.2 <;> rfl
  all_goals simp [Function.comp, Option.guard, hp, ha, hpre]

theorem mem_storedClients {s : Store} {c : ClientRecord} :
    c ∈ storedClients s ↔ StoredClient s c := by
  rw [storedClient_iff]
  unfold storedClients
  rw [List.mem_filterMap]
  constructor
  · rintro ⟨e, hmem, he⟩
    split at he
    · rename_i hc
      obtain ⟨⟨ep, ea, ek⟩, ev⟩ := e
      simp only at hc he
      obtain ⟨⟨rfl, rfl⟩, hpre⟩ := hc
      refine ⟨ek, hpre, mem_GetAppStore.2 ?_⟩
      cases ev with
      | client c1 =>
        simp only [decodeClient, Option.some.injEq] at he
        subst he
        exact val_of_mem_entries hmem
      | file r => simp [decodeClient] at he
      | other raw => simp [decodeClient] at he
    · cases he
  · rintro ⟨k, hpre, hmem⟩
    have hv := mem_GetAppStore.1 hmem
    refine ⟨⟨⟨SystemPersona, AppID, k⟩, .client c⟩, AList.mem_lookup_iff.1 hv, ?_⟩
    simp [hpre, decodeClient]

/-- C17 (as amended): ListClients never fails; its result is a rearrangement of
the decodable values stored under the keys with prefix "client:" in the system
persona (undecodable entries are skipped), so it holds exactly the stored
clients, and it is sorted ascending by name in the lexicographic order of the
strings; and when the sort is Go's `sort.Slice` and at most 12 clients are
stored, the clients of each name stand in the result in their scan order. -/
theorem list_clients (lib : GoLib) (s : Store) :
    ∃ cs, ListClients lib s = .ok cs ∧
      cs.Perm (storedClients s) ∧
      (∀ c, c ∈ cs ↔ StoredClient s c) ∧
      cs.Pairwise (fun x y => x.Name ≤ y.Name) ∧
      ((∀ (α : Type) (less : α → α → Bool) (l : List α),
          lib.sortSlice less l = GoSort.sortSlice less l) →
        (storedClients s).length ≤ 12 →
        ∀ n : String,
          cs.filter (fun c => c.Name == n) = (storedClients s).filter (fun c => c.Name == n)) := by
  refine ⟨_, ListClients_eq lib s, lib.sortSlice_perm _ _, fun c => ?_, ?_,
    fun hsort hlen n => ?_⟩
  · rw [(lib.sortSlice_perm _ _).mem_iff, mem_storedClients]
  · refine (lib.sortSlice_sorted _ (storedClients s) name_strictWeak).imp ?_
    intro x y hxy
    rw [Bool.eq_false_iff, ne_eq, stringLess_iff] at hxy
    exact not_lt.1 hxy
  · rw [hsort]
    refine GoSort.sortSlice_short_filter _ _ (fun x y hxy hboth => ?_) _ hlen
    rw [stringLess_iff] at hxy
    simp only [beq_iff_eq] at hboth
    rw [hboth.1, hboth.2] at hxy
    exact lt_irrefl _ hxy

/-- C17, concrete check: two clients of the same name, which the scan meets as
"id-2", "id-1", are returned in that order by Go's `sort.Slice`. -/
theorem list_clients_witness :
    (storedClients sameNameStore).length ≤ 12 ∧
      storedClients sameNameStore
        = [{ ID := "id-2", Name := "Ann", RecoveryCode := "CODE-2", LastActive := 1700000001,
             IsAdmin := false },
           { ID := "id-1", Name := "Ann", RecoveryCode := "CODE-1", LastActive := 1700000000,
             IsAdmin := false }] ∧
      ∃ cs, ListClients pdqsortLib sameNameStore = .ok cs ∧
        cs.Perm (storedClients sameNameStore) ∧
        (∀ c, c ∈ cs ↔ StoredClient sameNameStore c) ∧
        cs.Pairwise (fun x y => x.Name ≤ y.Name) ∧
        ∀ n : String,
          cs.filter (fun c => c.Name == n)
            = (storedClients sameNameStore).filter (fun c => c.Name == n) := by
  obtain ⟨cs, h1, h2, h3, h4, h5⟩ := list_clients pdqsortLib sameNameStore
  exact ⟨by decide, by decide, cs, h1, h2, h3, h4, h5 (fun _ _ _ => rfl) (by decide)⟩

/-- C17, concrete check: three clients come back sorted by name, upper case
before lower case. -/
theorem list_clients_scenario :
    ListClients stableLib (runClientOps Store.empty
        [.upsert "id-1" "bob" "CODE-1" 1, .upsert "id-2" "Zoe" "CODE-2" 2,
          .upsert "id-3" "Ann" "CODE-3" 3])
      = .ok [{ ID := "id-3", Name := "Ann", RecoveryCode := "CODE-3", LastActive := 3,
               IsAdmin := false },
             { ID := "id-2", Name := "Zoe", RecoveryCode := "CODE-2", LastActive := 2,
               IsAdmin := false },
             { ID := "id-1", Name := "bob", RecoveryCode := "CODE-1", LastActive := 1,
               IsAdmin := false }] := by
  decide

set_option maxRecDepth 100000 in
/-- C17, counterexample to the tie order: thirteen clients, of which the scan
meets "c00", ..., "c11" (all named "Ann") and then "c12" (named "Aaron").  Go's
`sort.Slice` takes the pivot "c06", finds the slice not sorted and partitions it
by swapping, and ListClients returns the twelve clients named "Ann" as "c06",
"c02", ..., "c05", "c00", "c07", ..., "c11", "c01": not in their scan order. -/
theorem list_clients_ties_fail :
    (storedClients thirteenClientsStore).map (fun c => (c.ID, c.Name))
        = [("c00", "Ann"), ("c01", "Ann"), ("c02", "Ann"), ("c03", "Ann"), ("c04", "Ann"),
            ("c05", "Ann"), ("c06", "Ann"), ("c07", "Ann"), ("c08", "Ann"), ("c09", "Ann"),
            ("c10", "Ann"), ("c11", "Ann"), ("c12", "Aaron")] ∧
      (GoSort.Slice (fun a b : ClientRecord => stringLess a.Name b.Name)
          (storedClients thirteenClientsStore)).map (fun c => c.ID)
        = ["c12", "c06", "c02", "c03", "c04", "c05", "c00", "c07", "c08", "c09", "c10", "c11",
            "c01"] ∧
      (ListClients pdqsortLib thirteenClientsStore).map (fun cs => cs.map fun c => (c.ID, c.Name))
        = .ok [("c12", "Aaron"), ("c06", "Ann"), ("c02", "Ann"), ("c03", "Ann"), ("c04", "Ann"),
            ("c05", "Ann"), ("c00", "Ann"), ("c07", "Ann"), ("c08", "Ann"), ("c09", "Ann"),
            ("c10", "Ann"), ("c11", "Ann"), ("c01", "Ann")] := by
  decide

/-! ## C19: where client records live -/

theorem not_clientPrefix_fileKey (id : String) :
    HasPrefix (FileKeyPrefix ++ id) ClientKeyPrefix = false := by
  simp only [HasPrefix, FileKeyPrefix, ClientKeyPrefix, String.data_append]
  rfl

theorem applyFileOp_val_cases {s : Store} {op : FileOp} {l : Loc} {v : Value}
    (h : (applyFileOp s op).val l = some v) :
    s.val l = some v ∨ ∃ p id, l = fileLoc p id := by
  cases op with
  | save r =>
    rw [applyFileOp_save_val] at h
    split at h
    · rename_i hl
      exact Or.inr ⟨_, _, hl⟩
    · exact Or.inl h
  | update id name ownerID isPublic =>
    simp only [applyFileOp] at h
    cases hu : UpdateFileRecord s id name ownerID isPublic with
    | error e =>
      rw [hu] at h
      exact Or.inl h
    | ok s1 =>
      rw [hu] at h
      simp only at h
      obtain ⟨p, r, -, hsame, hmove⟩ := UpdateFileRecord_ok hu
      by_cases hpers : resolvePersona r.OwnerID = resolvePersona ownerID
      · rw [hsame hpers] at h
        split at h
        · rename_i hl
          exact Or.inr ⟨_, _, hl⟩
        · exact Or.inl h
      · obtain ⟨v0, -, hval⟩ := hmove hpers
        rw [hval] at h
        split at h
        · rename_i hl
          exact Or.inr ⟨_, _, hl⟩
        · split at h
          · rename_i hl
            exact Or.inr ⟨_, _, hl⟩
          · split at h
            · cases h
            · exact Or.inl h
  | delete id =>
    simp only [applyFileOp] at h
    cases hd : DeleteFileRecord s id with
    | error e =>
      rw [hd] at h
      exact Or.inl h
    | ok s1 =>
      rw [hd] at h
      simp only at h
      obtain ⟨p, r, -, hval⟩ := DeleteFileRecord_ok hd
      rw [hval] at h
      split at h
      · cases h
      · exact Or.inl h

theorem ClientKeysInSystem_applyOp {s : Store} (op : Op) (hinv : ClientKeysInSystem s) :
    ClientKeysInSystem (applyOp s op) := by
  intro p a k v hget hpre
  rw [Store.Get_eq_ok] at hget
  cases op with
  | file fop =>
    rcases applyFileOp_val_cases (show (applyFileOp s fop).val ⟨p, a, k⟩ = some v from hget)
      with h | ⟨q, id, hl⟩
    · exact hinv p a k v (Store.Get_eq_ok.2 h) hpre
    · have hk : k = FileKeyPrefix ++ id := (Loc.mk.inj hl).2.2
      rw [hk, not_clientPrefix_fileKey] at hpre
      cases hpre
  | client cop =>
    by_cases hl : (⟨p, a, k⟩ : Loc) = clientLoc cop.target
    · exact (Loc.mk.inj hl).1
    · have h : (applyClientOp s cop).val ⟨p, a, k⟩ = some v := hget
      rw [applyClientOp_val s cop _ hl] at h
      exact hinv p a k v (Store.Get_eq_ok.2 h) hpre

theorem ClientKeysInSystem_runOps (ops : List Op) :
    ∀ s : Store, ClientKeysInSystem s → ClientKeysInSystem (runOps s ops) := by
  induction ops with
  | nil => intro s h; exact h
  | cons op ops ih => intro s h; exact ih _ (ClientKeysInSystem_applyOp op h)

/-- C19: starting from the empty store, after every sequence of Client Directory
and File Registry calls no persona other than SystemPersona holds a key with the
prefix "client:"; every Client Directory call for client id leaves every address
other than (SystemPersona, "flow", "client:"+id) as it was; and after
UpsertClient the client is returned by a direct Get on that address. -/
theorem client_location_invariant (ops : List Op) :
    ClientKeysInSystem (runOps Store.empty ops) ∧
      (∀ (s : Store) (op : ClientOp) (p a k : String),
        ¬ (p = SystemPersona ∧ a = AppID ∧ k = ClientKeyPrefix ++ op.target) →
        (applyClientOp s op).Get p a k = s.Get p a k) ∧
      (∀ (s : Store) (id name recoveryCode : String) (lastActive : Int),
        ∃ s1 c, UpsertClient s id name recoveryCode lastActive = .ok s1 ∧
          s1.Get SystemPersona AppID (ClientKeyPrefix ++ id) = .ok (.client c)) := by
  refine ⟨ClientKeysInSystem_runOps ops Store.empty ?_, ?_, ?_⟩
  · intro p a k v h
    rw [Store.Get_eq_ok, Store.val_empty] at h
    cases h
  · intro s op p a k hne
    have hl : (⟨p, a, k⟩ : Loc) ≠ clientLoc op.target := by
      intro h
      exact hne ⟨(Loc.mk.inj h).1, (Loc.mk.inj h).2.1, (Loc.mk.inj h).2.2⟩
    have hv := applyClientOp_val s op _ hl
    unfold Store.Get
    unfold Store.val at hv
    rw [hv]
  · intro s id name recoveryCode lastActive
    refine ⟨_, upsertedClient s id name recoveryCode lastActive, UpsertClient_eq _ _ _ _ _, ?_⟩
    rw [Store.Get_eq_ok]
    exact (val_insert_client s id _ _).trans (if_pos rfl)

/-- C19, concrete check: the direct read of TestPersonaFlow, after a file was
saved for the client as well. -/
theorem client_location_scenario :
    (runOps Store.empty
        [.client (.upsert "id-ann" "Ann" "ABC123" 1700000000),
          .file (.save { sampleA with OwnerID := "id-ann" }),
          .client (.updateAdminStatus "id-ann" true)]).Get
          SystemPersona "flow" "client:id-ann"
      = .ok (.client { ID := "id-ann", Name := "Ann", RecoveryCode := "ABC123",
                       LastActive := 1700000000, IsAdmin := true }) := by
  decide

/-! ## C18: the options built by the handler -/

/-- What the normalisation of `Handler.ListFiles` does achieve: the limit is at
least 1 (8 when the query gave less), the page counts from 1, the offset is the
64-bit product (page - 1) * Limit, and it is non-negative whenever that product
is below 2^63. -/
theorem handler_options_in_range (isAdmin : Bool) (ownerID search : String) (page limit : Int)
    (opts : ListFilesOptions)
    (h : Handler.ListFiles.options isAdmin ownerID search page limit = some opts) :
    1 ≤ opts.Limit ∧
      opts.Limit = (if limit < 1 then 8 else limit) ∧
      opts.Offset = wrapInt64 (((if page < 1 then 1 else page) - 1) * opts.Limit) ∧
      (((if page < 1 then 1 else page) - 1) * opts.Limit < 2 ^ 63 →
        opts.Offset = ((if page < 1 then 1 else page) - 1) * opts.Limit ∧ 0 ≤ opts.Offset) := by
  have hshape : opts.Limit = (if limit < 1 then 8 else limit) ∧
      opts.Offset = wrapInt64 (((if page < 1 then 1 else page) - 1)
        * (if limit < 1 then 8 else limit)) := by
    unfold Handler.ListFiles.options at h
    simp only at h
    split at h
    · split at h
      · cases h
      · cases h
        exact ⟨rfl, rfl⟩
    · cases h
      exact ⟨rfl, rfl⟩
  obtain ⟨hl, ho⟩ := hshape
  have hl1 : 1 ≤ opts.Limit := by
    rw [hl]
    split <;> omega
  have hp1 : 0 ≤ (if page < 1 then 1 else page) - 1 := by
    split <;> omega
  refine ⟨hl1, hl, by rw [ho, hl], fun hlt => ?_⟩
  have hnn : 0 ≤ ((if page < 1 then 1 else page) - 1) * opts.Limit :=
    Int.mul_nonneg hp1 (by omega)
  have hw : opts.Offset = ((if page < 1 then 1 else page) - 1) * opts.Limit := by
    rw [ho, ← hl]
    exact wrapInt64_of_inRange (by omega) hlt
  exact ⟨hw, by rw [hw]; exact hnn⟩

/-- C18, the failing input: the request `page=3&limit=4611686018427387904` of the
client "u1".  The limit is kept, the offset (3 - 1) * 2^62 wraps to -2^63, and
`db.ListFiles` called with these options panics in its slice expression. -/
theorem handler_offset_overflow :
    Handler.ListFiles.options false "u1" "" 3 4611686018427387904
        = some { Search := "", OwnerID := "u1", Limit := 4611686018427387904,
                 Offset := -9223372036854775808 } ∧
      ListFiles stableLib sampleStore
          { Search := "", OwnerID := "u1", Limit := 4611686018427387904,
            Offset := -9223372036854775808 }
        = .error .slicePanic := by
  decide

/-! ## C20: the bounds of the slice expression -/

/-- The slice expression of `ListFiles` is taken at `paginationBounds`. -/
theorem ListFiles_bounds (lib : GoLib) (s : Store) (opts : ListFilesOptions) :
    ListFiles lib s opts =
      match goSlice (sortedFiles lib s opts)
          (paginationBounds (sortedFiles lib s opts).length opts.Offset opts.Limit).1
          (paginationBounds (sortedFiles lib s opts).length opts.Offset opts.Limit).2 with
      | .error err => .error err
      | .ok files => .ok { Files := files, Total := (sortedFiles lib s opts).length } := rfl

/-- The bounds are safe when the sum does not overflow: for total ≥ 0,
offset ≥ 0 and a limit that is not positive or has limit + total < 2^63, the
bounds satisfy 0 ≤ start ≤ end ≤ total. -/
theorem slice_bounds_in_range (total offset limit : Int) (ht : 0 ≤ total) (ho : 0 ≤ offset)
    (hl : limit ≤ 0 ∨ limit + total < 2 ^ 63) :
    0 ≤ (paginationBounds total offset limit).1 ∧
      (paginationBounds total offset limit).1 ≤ (paginationBounds total offset limit).2 ∧
      (paginationBounds total offset limit).2 ≤ total := by
  unfold paginationBounds
  simp only
  by_cases hlim : limit ≤ 0
  · simp only [hlim, decide_True, Bool.true_or, if_true]
    split <;> omega
  · have hl1 : limit + total < 2 ^ 63 := by
      rcases hl with h | h
      · exact absurd h hlim
      · exact h
    have hw : wrapInt64 ((if offset > total then total else offset) + limit)
        = (if offset > total then total else offset) + limit :=
      wrapInt64_of_inRange (by split <;> omega) (by split <;> omega)
    rw [hw]
    simp only [hlim, decide_False, Bool.false_or, decide_eq_true_eq]
    split <;> split <;> omega

/-- C20, the failing input: total = 1, Offset = 1 and Limit = 2^63 - 1.  The
start index is 1, the end index 1 + Limit wraps to -2^63, which is not above
total, so it is kept: end < start, and `ListFiles` on the store with the one
file `sampleSys` panics.  The overflow is the one of the pagination property. -/
theorem slice_bounds_overflow :
    paginationBounds 1 1 9223372036854775807 = (1, -9223372036854775808) ∧
      ListFiles stableLib sampleSysStore
          { Search := "", OwnerID := "", Limit := 9223372036854775807, Offset := 1 }
        = .error .slicePanic := by
  decide

end Flow
